import Mathlib

/-!
Verification of the bitcoin-block-parser core against its specification.

The development shallowly embeds the two source files the claims are about:

* `src/blocks.rs`  — the parallel block-processing engine (`BlockParser::parse_with_opts`,
  `send_batch`, `increment_log`): batching of the header slice, the per-batch decode/extract
  worker, the intermediate channel, the single-threaded reorder stage used when
  `order_output` is set, and the multi-threaded unordered stage.
* `src/utxos.rs`   — the UTXO tracker: `ShortOutPoint`, `UtxoBlock`/`UtxoTransaction`,
  `UtxoFilter::outpoints`/`update`, and `UtxoPipeline::status`/`first`/`second`.

Hash maps (`FxHashMap`, `DashMap`) are embedded as association lists whose insert
overwrites an existing binding; channels and thread scheduling are embedded by
quantifying over all interleavings of the per-worker send sequences (`MergeAll`).
The scalable cuckoo filter is an external crate; per its interface contract in the
spec (a probabilistic set with insert / remove / contains and no false negatives)
it is embedded as an ideal multiset, represented by a list.
-/

namespace BBP

/-- Decidable equality for `Except`, used to evaluate the engine model on
concrete inputs. -/
instance {E A : Type} [DecidableEq E] [DecidableEq A] : DecidableEq (Except E A) :=
  fun x y =>
    match x, y with
    | Except.ok a, Except.ok b =>
      if h : a = b then isTrue (by rw [h])
      else isFalse (fun hc => h (Except.ok.inj hc))
    | Except.error e, Except.error f =>
      if h : e = f then isTrue (by rw [h])
      else isFalse (fun hc => h (Except.error.inj hc))
    | Except.ok _, Except.error _ => isFalse (fun hc => Except.noConfusion hc)
    | Except.error _, Except.ok _ => isFalse (fun hc => Except.noConfusion hc)

/-! ### Association-list model of the hash maps used by the source -/

/-- Lookup in the association-list model of a hash map (`FxHashMap` / `DashMap`). -/
def mapLookup {K V : Type} [DecidableEq K] (m : List (K × V)) (k : K) : Option V :=
  match m with
  | [] => none
  | (k', v) :: rest => if k' = k then some v else mapLookup rest k

/-- Hash-map insert: replaces the binding if the key is present, otherwise adds one.
This is the semantics of `FxHashMap::insert` and `DashMap::insert`. -/
def mapInsert {K V : Type} [DecidableEq K] (m : List (K × V)) (k : K) (v : V) :
    List (K × V) :=
  match m with
  | [] => [(k, v)]
  | (k', v') :: rest => if k' = k then (k, v) :: rest else (k', v') :: mapInsert rest k v

/-- Hash-map remove: returns the removed value (if any) together with the map without
that binding.  This is the semantics of `FxHashMap::remove` / `DashMap::remove`. -/
def mapRemove {K V : Type} [DecidableEq K] (m : List (K × V)) (k : K) :
    Option V × List (K × V) :=
  match m with
  | [] => (none, [])
  | (k', v) :: rest =>
    if k' = k then (some v, rest)
    else
      let r := mapRemove rest k
      (r.1, (k', v) :: r.2)

/-- Keys of the association-list map. -/
def mapKeys {K V : Type} (m : List (K × V)) : List K := m.map Prod.fst

@[simp] theorem mapKeys_nil {K V : Type} : mapKeys ([] : List (K × V)) = [] := rfl

@[simp] theorem mapKeys_cons {K V : Type} (k : K) (v : V) (m : List (K × V)) :
    mapKeys ((k, v) :: m) = k :: mapKeys m := rfl

theorem mapLookup_eq_none {K V : Type} [DecidableEq K] (m : List (K × V)) (k : K) :
    mapLookup m k = none ↔ k ∉ mapKeys m := by
  induction m with
  | nil => simp [mapLookup]
  | cons p rest ih =>
    obtain ⟨k₀, v₀⟩ := p
    simp only [mapLookup, mapKeys_cons, List.mem_cons]
    by_cases h : k₀ = k
    · subst h; simp
    · have h2 : ¬(k = k₀) := fun hh => h hh.symm
      simp [h, h2, ih]

theorem mapRemove_fst {K V : Type} [DecidableEq K] (m : List (K × V)) (k : K) :
    (mapRemove m k).1 = mapLookup m k := by
  induction m with
  | nil => rfl
  | cons p rest ih =>
    obtain ⟨k', v⟩ := p
    simp only [mapRemove, mapLookup]
    split <;> simp [ih]

theorem mapRemove_none_snd {K V : Type} [DecidableEq K] (m : List (K × V)) (k : K)
    (h : mapLookup m k = none) : (mapRemove m k).2 = m := by
  induction m with
  | nil => rfl
  | cons p rest ih =>
    obtain ⟨k', v⟩ := p
    simp only [mapLookup] at h
    simp only [mapRemove]
    by_cases h₀ : k' = k
    · simp [h₀] at h
    · simp only [if_neg h₀] at h ⊢
      simp [ih h]

theorem mapRemove_some_length {K V : Type} [DecidableEq K] (m : List (K × V)) (k : K)
    (v : V) (h : mapLookup m k = some v) : (mapRemove m k).2.length + 1 = m.length := by
  induction m with
  | nil => simp [mapLookup] at h
  | cons p rest ih =>
    obtain ⟨k', v'⟩ := p
    simp only [mapLookup] at h
    simp only [mapRemove]
    by_cases h₀ : k' = k
    · simp [h₀]
    · simp only [if_neg h₀] at h ⊢
      simp [ih h]

theorem mapInsert_lookup {K V : Type} [DecidableEq K] (m : List (K × V)) (k k' : K)
    (v : V) :
    mapLookup (mapInsert m k v) k' = if k' = k then some v else mapLookup m k' := by
  induction m with
  | nil =>
    by_cases h : k' = k
    · subst h; simp [mapInsert, mapLookup]
    · have h2 : ¬(k = k') := fun hh => h hh.symm
      simp [mapInsert, mapLookup, h, h2]
  | cons p rest ih =>
    obtain ⟨k₀, v₀⟩ := p
    simp only [mapInsert]
    by_cases h₀ : k₀ = k
    · simp only [if_pos h₀, mapLookup]
      by_cases h₁ : k' = k
      · subst h₁
        simp
      · have h2 : ¬(k = k') := fun hh => h₁ hh.symm
        have h3 : ¬(k₀ = k') := h₀ ▸ h2
        simp [h₁, h2, h3]
    · simp only [if_neg h₀, mapLookup]
      by_cases h₁ : k₀ = k'
      · have h2 : ¬(k' = k) := fun hh => h₀ (h₁.trans hh)
        simp [h₁, h2]
      · simp [h₁, ih]

theorem mapInsert_keys {K V : Type} [DecidableEq K] (m : List (K × V)) (k : K) (v : V) :
    mapKeys (mapInsert m k v) =
      if k ∈ mapKeys m then mapKeys m else mapKeys m ++ [k] := by
  induction m with
  | nil => simp [mapInsert]
  | cons p rest ih =>
    obtain ⟨k₀, v₀⟩ := p
    simp only [mapInsert, mapKeys_cons, List.mem_cons]
    by_cases h₀ : k₀ = k
    · simp [h₀]
    · have h2 : ¬(k = k₀) := fun hh => h₀ hh.symm
      simp only [if_neg h₀, mapKeys_cons, ih]
      by_cases h₁ : k ∈ mapKeys rest <;> simp [h₁, h2]

theorem mapInsert_keys_nodup {K V : Type} [DecidableEq K] (m : List (K × V)) (k : K)
    (v : V) (h : (mapKeys m).Nodup) : (mapKeys (mapInsert m k v)).Nodup := by
  rw [mapInsert_keys]
  by_cases h₀ : k ∈ mapKeys m
  · simpa [h₀] using h
  · simp only [if_neg h₀]
    simpa [List.nodup_append] using ⟨h, h₀⟩

theorem mapRemove_keys_sublist {K V : Type} [DecidableEq K] (m : List (K × V)) (k : K) :
    (mapKeys (mapRemove m k).2).Sublist (mapKeys m) := by
  induction m with
  | nil => simp [mapRemove]
  | cons p rest ih =>
    obtain ⟨k₀, v₀⟩ := p
    simp only [mapRemove]
    by_cases h₀ : k₀ = k
    · simp only [if_pos h₀, mapKeys_cons]
      exact (List.sublist_cons_self k₀ (mapKeys rest))
    · simp only [if_neg h₀, mapKeys_cons]
      exact ih.cons₂ k₀

theorem mapRemove_keys_nodup {K V : Type} [DecidableEq K] (m : List (K × V)) (k : K)
    (h : (mapKeys m).Nodup) : (mapKeys (mapRemove m k).2).Nodup :=
  (mapRemove_keys_sublist m k).nodup h

theorem mapRemove_lookup {K V : Type} [DecidableEq K] (m : List (K × V)) (k k' : K)
    (h : (mapKeys m).Nodup) :
    mapLookup (mapRemove m k).2 k' = if k' = k then none else mapLookup m k' := by
  induction m with
  | nil => simp [mapRemove, mapLookup]
  | cons p rest ih =>
    obtain ⟨k₀, v₀⟩ := p
    simp only [mapKeys_cons, List.nodup_cons] at h
    simp only [mapRemove]
    by_cases h₀ : k₀ = k
    · simp only [if_pos h₀]
      by_cases h₁ : k' = k
      · subst h₁
        have hk : k' ∉ mapKeys rest := by rw [← h₀]; exact h.1
        simp [(mapLookup_eq_none rest k').2 hk]
      · have h2 : ¬(k₀ = k') := fun hh => h₁ (hh.symm.trans h₀)
        simp [h₁, mapLookup, h2]
    · simp only [if_neg h₀, mapLookup]
      by_cases h₁ : k₀ = k'
      · have h2 : ¬(k' = k) := fun hh => h₀ (h₁.trans hh)
        simp [h₁, h2]
      · simp only [if_neg h₁, ih h.2]

/-! ### Data model (`bitcoin` crate types, as used by `src/utxos.rs`)

`Txid` is a 32-byte hash; it is represented as a `List Nat` of its bytes
(`Txid::as_byte_array`).  Hashing itself is external, so functions that call
`Transaction::compute_txid` take the hash function as a parameter. -/

/-- An outpoint `(txid, vout)` (the `bitcoin::OutPoint` type). -/
structure OutPoint where
  txid : List Nat
  vout : Nat
deriving DecidableEq, Repr

/-- Test for the null outpoint (all-zero txid, `vout = u32::MAX`), as in
`bitcoin::OutPoint::is_null`. -/
def OutPoint.is_null (o : OutPoint) : Bool :=
  o.txid == List.replicate 32 0 && o.vout == 4294967295

/-- A transaction input; only the field the parsed claims touch
(`previous_output`) is modelled. -/
structure TxIn where
  previous_output : OutPoint
deriving DecidableEq, Repr

/-- A transaction output carrying its value in satoshis (`Amount` is a `Nat`). -/
structure TxOut where
  value : Nat
deriving DecidableEq, Repr

/-- A transaction (`bitcoin::Transaction`). -/
structure Transaction where
  version : Int
  lock_time : Nat
  input : List TxIn
  output : List TxOut
deriving DecidableEq, Repr

/-- Coinbase test as in `bitcoin::Transaction::is_coinbase`: exactly one input
whose previous output is the null outpoint. -/
def Transaction.is_coinbase (tx : Transaction) : Bool :=
  match tx.input with
  | [i] => i.previous_output.is_null
  | _ => false

/-- A block: a header plus the transaction list.  The header's contents are
irrelevant to every claim, so the header type is a parameter. -/
structure Block (H : Type) where
  header : H
  txdata : List Transaction

/-! ### ShortOutPoint (`src/utxos.rs`) -/

/-- Little-endian byte representation of a `usize` (`usize::to_le_bytes`). -/
def toLeBytes8 (n : Nat) : List Nat := (List.range 8).map (fun i => n / 256 ^ i % 256)

/-- Shortened outpoint: the 14-byte key of `src/utxos.rs` (`struct ShortOutPoint(Vec<u8>)`). -/
structure ShortOutPoint where
  bytes : List Nat
deriving DecidableEq, Repr

/-- `ShortOutPoint::new`: the first 2 little-endian bytes of the output index
followed by the first 12 bytes of the txid. -/
def ShortOutPoint.new (vout : Nat) (txid : List Nat) : ShortOutPoint :=
  ⟨(toLeBytes8 vout).take 2 ++ txid.take 12⟩

/-- `ShortOutPoint::from_outpoint`: shorten an existing outpoint. -/
def ShortOutPoint.from_outpoint (outpoint : OutPoint) : ShortOutPoint :=
  ShortOutPoint.new outpoint.vout outpoint.txid

theorem toLeBytes8_take_two (n : Nat) :
    (toLeBytes8 n).take 2 = [n % 256, n / 256 % 256] := by
  have h8 : List.range 8 = [0, 1, 2, 3, 4, 5, 6, 7] := by decide
  simp [toLeBytes8, h8]

/-- Claim C5: `ShortOutPoint(i, t)` is the 14-byte string of the 2 low little-endian
bytes of `i` followed by the first 12 bytes of `t`; two pairs differing in the low
16 bits of the index or in the first 12 txid bytes encode distinctly. -/
theorem shortOutPoint_encoding (vout vout' : Nat) (txid txid' : List Nat)
    (h : txid.length = 32) :
    (ShortOutPoint.new vout txid).bytes = [vout % 256, vout / 256 % 256] ++ txid.take 12 ∧
    (ShortOutPoint.new vout txid).bytes.length = 14 ∧
    ((vout % 65536 ≠ vout' % 65536 ∨ txid.take 12 ≠ txid'.take 12) →
      ShortOutPoint.new vout txid ≠ ShortOutPoint.new vout' txid') := by
  refine ⟨by simp [ShortOutPoint.new, toLeBytes8_take_two], ?_, ?_⟩
  · simp [ShortOutPoint.new, toLeBytes8_take_two, h]
  · intro hne heq
    have hb : (ShortOutPoint.new vout txid).bytes = (ShortOutPoint.new vout' txid').bytes := by
      rw [heq]
    rw [show (ShortOutPoint.new vout txid).bytes
          = [vout % 256, vout / 256 % 256] ++ txid.take 12 by
        simp [ShortOutPoint.new, toLeBytes8_take_two],
      show (ShortOutPoint.new vout' txid').bytes
          = [vout' % 256, vout' / 256 % 256] ++ txid'.take 12 by
        simp [ShortOutPoint.new, toLeBytes8_take_two]] at hb
    simp only [List.cons_append, List.nil_append, List.cons.injEq] at hb
    obtain ⟨h0, h1, h2⟩ := hb
    rcases hne with hne | hne
    · exact hne (by omega)
    · exact hne h2

theorem shortOutPoint_encoding_witness :
    (ShortOutPoint.new 5 (List.replicate 32 7)).bytes.length = 14 :=
  (shortOutPoint_encoding 5 5 (List.replicate 32 7) (List.replicate 32 7) (by decide)).2.1

/-! ### UtxoBlock and UtxoTransaction (`src/utxos.rs`) -/

/-- Status of an output within the transaction graph (`OutputStatus`). -/
inductive OutputStatus where
  | Spent
  | Unspent
  | Unknown
deriving DecidableEq, Repr

/-- A transaction annotated with input amounts and output statuses
(`UtxoTransaction`). -/
structure UtxoTransaction where
  transaction : Transaction
  txid : List Nat
  inputs : List Nat
  outputs : List OutputStatus
deriving DecidableEq, Repr

/-- `UtxoTransaction::new`: precompute the txid, start with empty annotation
vectors.  `computeTxid` stands for the external `Transaction::compute_txid`. -/
def UtxoTransaction.new (computeTxid : Transaction → List Nat)
    (transaction : Transaction) : UtxoTransaction :=
  { transaction := transaction
    txid := computeTxid transaction
    inputs := []
    outputs := [] }

/-- A block annotated with UTXO data (`UtxoBlock`). -/
structure UtxoBlock (H : Type) where
  header : H
  txdata : List UtxoTransaction

/-- `UtxoBlock::new`: convert every transaction. -/
def UtxoBlock.new {H : Type} (computeTxid : Transaction → List Nat)
    (block : Block H) : UtxoBlock H :=
  { header := block.header
    txdata := block.txdata.map (UtxoTransaction.new computeTxid) }

/-- `UtxoBlock::to_block`: drop the annotations and return the underlying block. -/
def UtxoBlock.to_block {H : Type} (b : UtxoBlock H) : Block H :=
  { header := b.header
    txdata := b.txdata.map (fun tx => tx.transaction) }

/-- Claim C10: converting a block with `UtxoBlock::new` and calling `to_block`
returns the original block — same header, same transactions in the same order. -/
theorem utxoBlock_new_to_block {H : Type} (computeTxid : Transaction → List Nat)
    (b : Block H) : (UtxoBlock.new computeTxid b).to_block = b := by
  cases b with
  | mk header txdata =>
    simp only [UtxoBlock.new, UtxoBlock.to_block, List.map_map, Block.mk.injEq]
    refine ⟨trivial, ?_⟩
    induction txdata with
    | nil => rfl
    | cons t ts ih => simp [UtxoTransaction.new, ih]

/-! ### Batching of the header slice (`BlockParser::parse_with_opts`, `src/blocks.rs`)

The source builds `batched: Vec<Vec<ParsedHeader>>` starting from `vec![vec![]]`,
pushing each header onto the last batch and opening a new empty batch whenever the
last one reaches `batch_size`.  The vector "all finished batches plus the current
last batch" is represented as a pair `(done, cur)`. -/

/-- One iteration of the batch-creation loop of `parse_with_opts`. -/
def createBatchesStep {H : Type} (batch_size : Nat) (st : List (List H) × List H)
    (header : H) : List (List H) × List H :=
  let cur := st.2 ++ [header]
  if cur.length = batch_size then (st.1 ++ [cur], []) else (st.1, cur)

/-- The batch-creation loop of `parse_with_opts`: the final contents of `batched`. -/
def createBatches {H : Type} (batch_size : Nat) (headers : List H) :
    List (List H) :=
  let st := headers.foldl (createBatchesStep batch_size) ([], [])
  st.1 ++ [st.2]

/-- Direct recursive description of the batch-creation loop. -/
def chunksFrom {H : Type} (batch_size : Nat) : List H → List H → List (List H)
  | cur, [] => [cur]
  | cur, h :: t =>
    if cur.length + 1 = batch_size then (cur ++ [h]) :: chunksFrom batch_size [] t
    else chunksFrom batch_size (cur ++ [h]) t

theorem createBatches_foldl {H : Type} (batch_size : Nat) (l : List H) :
    ∀ (done : List (List H)) (cur : List H),
      (l.foldl (createBatchesStep batch_size) (done, cur)).1
          ++ [(l.foldl (createBatchesStep batch_size) (done, cur)).2]
        = done ++ chunksFrom batch_size cur l := by
  induction l with
  | nil => intro done cur; simp [chunksFrom]
  | cons h t ih =>
    intro done cur
    simp only [List.foldl_cons, createBatchesStep, chunksFrom]
    by_cases hc : cur.length + 1 = batch_size
    · have hc' : (cur ++ [h]).length = batch_size := by
        simp [hc]
      simp only [List.length_append, List.length_singleton, hc, if_pos hc', ih]
      simp
    · have hc' : ¬((cur ++ [h]).length = batch_size) := by
        simp only [List.length_append, List.length_singleton]
        exact hc
      simp only [List.length_append, List.length_singleton, if_neg hc, if_neg hc', ih]

theorem createBatches_eq {H : Type} (batch_size : Nat) (headers : List H) :
    createBatches batch_size headers = chunksFrom batch_size [] headers := by
  simpa [createBatches] using createBatches_foldl batch_size headers [] []

theorem chunksFrom_unfold {H : Type} (batch_size : Nat) (l : List H) :
    ∀ cur : List H, cur.length < batch_size →
      chunksFrom batch_size cur l
        = if cur.length + l.length < batch_size then [cur ++ l]
          else (cur ++ l.take (batch_size - cur.length))
              :: chunksFrom batch_size [] (l.drop (batch_size - cur.length)) := by
  induction l with
  | nil =>
    intro cur hcur
    simp only [chunksFrom, List.length_nil, Nat.add_zero, if_pos hcur, List.append_nil]
  | cons h t ih =>
    intro cur hcur
    simp only [chunksFrom, List.length_cons]
    by_cases hc : cur.length + 1 = batch_size
    · have hlt : ¬(cur.length + (t.length + 1) < batch_size) := by omega
      have hsub : batch_size - cur.length = 1 := by omega
      have ht1 : List.take 1 (h :: t) = [h] := rfl
      have hd1 : List.drop 1 (h :: t) = t := rfl
      simp only [if_pos hc, if_neg hlt, hsub, ht1, hd1]
    · have hcur' : (cur ++ [h]).length < batch_size := by
        simp only [List.length_append, List.length_singleton]
        omega
      rw [if_neg hc, ih (cur ++ [h]) hcur']
      have hcond : (cur ++ [h]).length + t.length < batch_size
          ↔ cur.length + (t.length + 1) < batch_size := by
        simp only [List.length_append, List.length_singleton]
        omega
      by_cases hc₂ : cur.length + (t.length + 1) < batch_size
      · rw [if_pos (hcond.2 hc₂), if_pos hc₂]
        simp
      · rw [if_neg (fun hh => hc₂ (hcond.1 hh)), if_neg hc₂]
        have hsub : batch_size - cur.length = (batch_size - (cur ++ [h]).length) + 1 := by
          simp only [List.length_append, List.length_singleton]
          omega
        rw [hsub]
        simp only [List.take_succ_cons, List.drop_succ_cons, List.append_assoc,
          List.singleton_append, List.length_append, List.length_singleton]

theorem chunksFrom_nil_unfold {H : Type} (batch_size : Nat) (hbs : 0 < batch_size)
    (l : List H) :
    chunksFrom batch_size [] l
      = if l.length < batch_size then [l]
        else l.take batch_size :: chunksFrom batch_size [] (l.drop batch_size) := by
  simpa using chunksFrom_unfold batch_size l [] (by simpa using hbs)

theorem chunksFrom_nil_length {H : Type} (batch_size : Nat) (hbs : 0 < batch_size) :
    ∀ (k : Nat) (l : List H), l.length ≤ k →
      (chunksFrom batch_size [] l).length = l.length / batch_size + 1 := by
  intro k
  induction k with
  | zero =>
    intro l hl
    have : l = [] := List.length_eq_zero.1 (Nat.le_zero.1 hl)
    subst this
    simp [chunksFrom, Nat.zero_div]
  | succ k ih =>
    intro l hl
    rw [chunksFrom_nil_unfold batch_size hbs l]
    by_cases hsmall : l.length < batch_size
    · simp [hsmall, Nat.div_eq_of_lt hsmall]
    · have hge : batch_size ≤ l.length := Nat.le_of_not_lt hsmall
      have hdrop : (l.drop batch_size).length ≤ k := by
        simp only [List.length_drop]
        omega
      rw [if_neg hsmall]
      simp only [List.length_cons, ih (l.drop batch_size) hdrop, List.length_drop]
      have hdiv : l.length / batch_size = (l.length - batch_size) / batch_size + 1 :=
        Nat.div_eq_sub_div hbs hge
      omega

theorem chunksFrom_nil_getD {H : Type} (batch_size : Nat) (hbs : 0 < batch_size) :
    ∀ (k : Nat) (l : List H), l.length ≤ k → ∀ i : Nat,
      (chunksFrom batch_size [] l).getD i []
        = (l.drop (i * batch_size)).take batch_size := by
  intro k
  induction k with
  | zero =>
    intro l hl i
    have : l = [] := List.length_eq_zero.1 (Nat.le_zero.1 hl)
    subst this
    cases i <;> simp [chunksFrom]
  | succ k ih =>
    intro l hl i
    rw [chunksFrom_nil_unfold batch_size hbs l]
    by_cases hsmall : l.length < batch_size
    · rw [if_pos hsmall]
      cases i with
      | zero =>
        simp [List.take_of_length_le (Nat.le_of_lt hsmall)]
      | succ j =>
        have hge : batch_size ≤ (j + 1) * batch_size := by
          calc batch_size = 1 * batch_size := (Nat.one_mul _).symm
            _ ≤ (j + 1) * batch_size := Nat.mul_le_mul_right _ (by omega)
        have hnil : l.drop ((j + 1) * batch_size) = [] :=
          List.drop_eq_nil_of_le (by omega)
        simp [hnil]
    · have hge : batch_size ≤ l.length := Nat.le_of_not_lt hsmall
      have hdrop : (l.drop batch_size).length ≤ k := by
        simp only [List.length_drop]
        omega
      rw [if_neg hsmall]
      cases i with
      | zero => simp
      | succ j =>
        have := ih (l.drop batch_size) hdrop j
        simp only [List.getD_cons_succ, this, List.drop_drop]
        have harith : batch_size + j * batch_size = (j + 1) * batch_size := by
          rw [Nat.succ_mul, Nat.add_comm]
        rw [harith]

/-- Counterexample to claim C4 as stated: with `batch_size = 2` and two headers the
batch-creation loop produces a trailing empty batch, so not every batch is
non-empty. -/
theorem createBatches_empty_batch :
    ¬(∀ b ∈ createBatches 2 [(0 : Nat), 1], b ≠ []) := by decide

/-- Claim C4 (amended): for `batch_size ≥ 1`, the loop produces
`|H| / batch_size + 1` batches, and the `i`-th batch consists of descriptors
`i * batch_size .. min((i+1) * batch_size, |H|)`; in particular the final batch is
empty exactly when `batch_size` divides `|H|`. -/
theorem createBatches_spec {H : Type} (batch_size : Nat) (headers : List H)
    (hbs : 0 < batch_size) :
    (createBatches batch_size headers).length = headers.length / batch_size + 1 ∧
    ∀ i : Nat, (createBatches batch_size headers).getD i []
        = (headers.drop (i * batch_size)).take batch_size := by
  rw [createBatches_eq]
  exact ⟨chunksFrom_nil_length batch_size hbs headers.length headers (Nat.le_refl _),
    fun i => chunksFrom_nil_getD batch_size hbs headers.length headers (Nat.le_refl _) i⟩

theorem createBatches_spec_witness :
    (createBatches 2 [(0 : Nat), 1, 2]).length = 3 / 2 + 1 :=
  (createBatches_spec 2 [0, 1, 2] (by decide)).1

/-! ### The UTXO filter builder (`UtxoFilter`, `src/utxos.rs`)

The scalable cuckoo filter itself is an external crate; following its interface
contract in the spec (insertion, removal and membership with no false negatives)
the filter state is embedded as an ideal multiset of `ShortOutPoint`s,
represented by a list.  What is verified here is the repository's own code: the
order of operations in `UtxoFilter::update` and the outpoint extraction in
`UtxoFilter::outpoints`. -/

/-- Filter insertion (`ScalableCuckooFilter::insert`), multiset semantics. -/
def UtxoFilter.insert (f : List ShortOutPoint) (p : ShortOutPoint) :
    List ShortOutPoint := p :: f

/-- Filter removal (`ScalableCuckooFilter::remove`), multiset semantics: erase one
occurrence. -/
def UtxoFilter.remove (f : List ShortOutPoint) (p : ShortOutPoint) :
    List ShortOutPoint := f.erase p

/-- The first loop of `UtxoFilter::update`: insert an outpoint for every output. -/
def UtxoFilter.insertAll (f : List ShortOutPoint) (outputs : List ShortOutPoint) :
    List ShortOutPoint := outputs.foldl UtxoFilter.insert f

/-- The second loop of `UtxoFilter::update`: remove the outpoint of every input. -/
def UtxoFilter.removeAll (f : List ShortOutPoint) (inputs : List ShortOutPoint) :
    List ShortOutPoint := inputs.foldl UtxoFilter.remove f

/-- `UtxoFilter::update`: all outputs are inserted first, then all inputs are
removed.  `outpoints` is the pair `(inputs, outputs)`. -/
def UtxoFilter.update (f : List ShortOutPoint)
    (outpoints : List ShortOutPoint × List ShortOutPoint) : List ShortOutPoint :=
  UtxoFilter.removeAll (UtxoFilter.insertAll f outpoints.2) outpoints.1

/-- `UtxoFilter::outpoints`: collect the shortened outpoints of all inputs and all
outputs of a block, in transaction order. -/
def UtxoFilter.outpoints {H : Type} (computeTxid : Transaction → List Nat)
    (block : Block H) : List ShortOutPoint × List ShortOutPoint :=
  block.txdata.foldl (fun acc tx =>
    let txid := computeTxid tx
    (acc.1 ++ tx.input.map (fun input => ShortOutPoint.from_outpoint input.previous_output),
     acc.2 ++ (List.range tx.output.length).map (fun index => ShortOutPoint.new index txid)))
    ([], [])

theorem utxoFilter_insertAll_count (outputs : List ShortOutPoint) :
    ∀ (f : List ShortOutPoint) (p : ShortOutPoint),
      (UtxoFilter.insertAll f outputs).count p = f.count p + outputs.count p := by
  induction outputs with
  | nil => intro f p; simp [UtxoFilter.insertAll]
  | cons o t ih =>
    intro f p
    simp only [UtxoFilter.insertAll, List.foldl_cons] at ih ⊢
    rw [show UtxoFilter.insert f o = o :: f from rfl, ih]
    by_cases h : o = p
    · subst h
      have h1 : (o :: f).count o = f.count o + 1 := List.count_cons_self o f
      have h2 : (o :: t).count o = t.count o + 1 := List.count_cons_self o t
      omega
    · have h1 : (o :: f).count p = f.count p :=
        List.count_cons_of_ne (fun hh => h hh.symm) f
      have h2 : (o :: t).count p = t.count p :=
        List.count_cons_of_ne (fun hh => h hh.symm) t
      omega

theorem utxoFilter_removeAll_count (l1 : List ShortOutPoint) :
    ∀ (f : List ShortOutPoint) (p : ShortOutPoint), p ∉ l1 →
      (UtxoFilter.removeAll f l1).count p = f.count p := by
  induction l1 with
  | nil => intro f p _; simp [UtxoFilter.removeAll]
  | cons q t ih =>
    intro f p hp
    simp only [List.mem_cons, not_or] at hp
    simp only [UtxoFilter.removeAll, List.foldl_cons] at ih ⊢
    rw [ih (UtxoFilter.remove f q) p hp.2,
      show UtxoFilter.remove f q = f.erase q from rfl,
      List.count_erase_of_ne hp.1 f]

/-- Claim C8: in `UtxoFilter::update` every output of the block is inserted before
any input is removed, so an outpoint that the block both creates and spends is
still in the filter at the moment its removal is attempted (`l1` is the list of
inputs removed before the spend of `p`). -/
theorem utxoFilter_update_order {H : Type} (computeTxid : Transaction → List Nat)
    (block : Block H) (f0 : List ShortOutPoint) (p : ShortOutPoint)
    (l1 l2 : List ShortOutPoint)
    (hsplit : (UtxoFilter.outpoints computeTxid block).1 = l1 ++ p :: l2)
    (hfirst : p ∉ l1)
    (hout : p ∈ (UtxoFilter.outpoints computeTxid block).2) :
    p ∈ UtxoFilter.removeAll
        (UtxoFilter.insertAll f0 (UtxoFilter.outpoints computeTxid block).2) l1 ∧
    UtxoFilter.update f0 (UtxoFilter.outpoints computeTxid block)
      = UtxoFilter.removeAll
          (UtxoFilter.remove
            (UtxoFilter.removeAll
              (UtxoFilter.insertAll f0 (UtxoFilter.outpoints computeTxid block).2) l1)
            p)
          l2 := by
  constructor
  · rw [← List.count_pos_iff]
    rw [utxoFilter_removeAll_count l1 _ p hfirst,
      utxoFilter_insertAll_count _ f0 p]
    have : 0 < ((UtxoFilter.outpoints computeTxid block).2).count p :=
      List.count_pos_iff.2 hout
    omega
  · rw [UtxoFilter.update, hsplit, UtxoFilter.removeAll, List.foldl_append,
      List.foldl_cons]
    rfl

/-- Concrete fixture: a transaction whose single input spends output 0 of the txid
that `sampleTxidFn` assigns to every transaction, and which has one output. -/
def sampleTx : Transaction :=
  { version := 2
    lock_time := 0
    input := [{ previous_output := { txid := List.replicate 32 3, vout := 0 } }]
    output := [{ value := 50 }] }

/-- Concrete txid function used by the witnesses (external hashing is opaque). -/
def sampleTxidFn : Transaction → List Nat := fun _ => List.replicate 32 3

/-- Concrete one-transaction block for the witnesses. -/
def sampleBlock : Block Nat := { header := 0, txdata := [sampleTx] }

/-! ### The UTXO pipeline, stage one (`UtxoPipeline::first`, `src/utxos.rs`) -/

/-- The shared amount map of the pipeline (`DashMap<ShortOutPoint, Amount>`). -/
abbrev AmountMap := List (ShortOutPoint × Nat)

/-- `UtxoPipeline::status`: `Unknown` without a filter, otherwise `Unspent` exactly
when the filter contains the outpoint.  The (read-only) filter is embedded by its
membership function `contains`. -/
def UtxoPipeline.status (filter : Option (ShortOutPoint → Bool))
    (outpoint : ShortOutPoint) : OutputStatus :=
  match filter with
  | none => OutputStatus.Unknown
  | some f => if f outpoint then OutputStatus.Unspent else OutputStatus.Spent

/-- Inner loop of `UtxoPipeline::first` over the outputs of one transaction:
append each status, and insert the amount whenever the status is not `Unspent`. -/
def firstOutputs (filter : Option (ShortOutPoint → Bool)) (txid : List Nat) :
    Nat → List TxOut → List OutputStatus → AmountMap → List OutputStatus × AmountMap
  | _, [], sts, amounts => (sts, amounts)
  | index, output :: rest, sts, amounts =>
    let outpoint := ShortOutPoint.new index txid
    let status := UtxoPipeline.status filter outpoint
    let amounts' :=
      if status ≠ OutputStatus.Unspent then mapInsert amounts outpoint output.value
      else amounts
    firstOutputs filter txid (index + 1) rest (sts ++ [status]) amounts'

/-- Outer loop of `UtxoPipeline::first` over the transactions of a block. -/
def firstTxs (filter : Option (ShortOutPoint → Bool)) :
    List UtxoTransaction → AmountMap → List UtxoTransaction × AmountMap
  | [], amounts => ([], amounts)
  | tx :: rest, amounts =>
    let r := firstOutputs filter tx.txid 0 tx.transaction.output tx.outputs amounts
    let r2 := firstTxs filter rest r.2
    ({ tx with outputs := r.1 } :: r2.1, r2.2)

/-- `UtxoPipeline::first` (stage one): annotate every output with its status and
record the amounts of the outputs that are not `Unspent` in the shared map. -/
def UtxoPipeline.first {H : Type} (filter : Option (ShortOutPoint → Bool))
    (block : UtxoBlock H) (amounts : AmountMap) : UtxoBlock H × AmountMap :=
  let r := firstTxs filter block.txdata amounts
  ({ header := block.header, txdata := r.1 }, r.2)

/-- The outpoints of the outputs of one annotated transaction, in output order. -/
def txOutPoints (tx : UtxoTransaction) : List ShortOutPoint :=
  (List.range tx.transaction.output.length).map (fun i => ShortOutPoint.new i tx.txid)

/-- The outpoints of all outputs of an annotated block. -/
def blockOutPoints {H : Type} (b : UtxoBlock H) : List ShortOutPoint :=
  b.txdata.flatMap txOutPoints

theorem outPoint_shift_map (txid : List Nat) (index n : Nat) :
    (List.range n).map ((fun k => ShortOutPoint.new (index + k) txid) ∘ Nat.succ)
      = (List.range n).map (fun k => ShortOutPoint.new (index + 1 + k) txid) := by
  apply List.map_congr_left
  intro a _
  simp only [Function.comp]
  congr 1
  omega

theorem firstOutputs_fst (filter : Option (ShortOutPoint → Bool)) (txid : List Nat) :
    ∀ (outputs : List TxOut) (index : Nat) (sts : List OutputStatus)
      (amounts : AmountMap),
      (firstOutputs filter txid index outputs sts amounts).1
        = sts ++ (List.range outputs.length).map
            (fun k => UtxoPipeline.status filter (ShortOutPoint.new (index + k) txid)) := by
  intro outputs
  induction outputs with
  | nil => intro index sts amounts; simp [firstOutputs]
  | cons o rest ih =>
    intro index sts amounts
    simp only [firstOutputs, ih, List.length_cons, List.range_succ_eq_map,
      List.map_cons, List.map_map]
    have hmap : (List.range rest.length).map
        ((fun k => UtxoPipeline.status filter (ShortOutPoint.new (index + k) txid))
          ∘ Nat.succ)
        = (List.range rest.length).map
          (fun k => UtxoPipeline.status filter (ShortOutPoint.new (index + 1 + k) txid)) := by
      apply List.map_congr_left
      intro a _
      have h : index + (a + 1) = index + 1 + a := by omega
      simp only [Function.comp]
      rw [Nat.succ_eq_add_one, h]
    rw [hmap]
    simp

theorem firstOutputs_lookup_outside (filter : Option (ShortOutPoint → Bool))
    (txid : List Nat) :
    ∀ (outputs : List TxOut) (index : Nat) (sts : List OutputStatus)
      (amounts : AmountMap) (q : ShortOutPoint),
      (∀ k, k < outputs.length → q ≠ ShortOutPoint.new (index + k) txid) →
      mapLookup (firstOutputs filter txid index outputs sts amounts).2 q
        = mapLookup amounts q := by
  intro outputs
  induction outputs with
  | nil => intro index sts amounts q _; simp [firstOutputs]
  | cons o rest ih =>
    intro index sts amounts q hq
    simp only [firstOutputs]
    rw [ih (index + 1) _ _ q ?_]
    · split
      · rw [mapInsert_lookup]
        have h0 : ¬(q = ShortOutPoint.new index txid) := by
          have := hq 0 (by simp)
          simpa using this
        simp [h0]
      · rfl
    · intro k hk
      have := hq (k + 1) (by simpa using Nat.succ_lt_succ hk)
      intro hcontra
      apply this
      rw [hcontra]
      congr 1
      omega

theorem firstOutputs_lookup_at (filter : Option (ShortOutPoint → Bool))
    (txid : List Nat) :
    ∀ (outputs : List TxOut) (index : Nat) (sts : List OutputStatus)
      (amounts : AmountMap),
      (((List.range outputs.length).map
          (fun k => ShortOutPoint.new (index + k) txid)).Nodup) →
      ∀ k, k < outputs.length →
        (UtxoPipeline.status filter (ShortOutPoint.new (index + k) txid)
            ≠ OutputStatus.Unspent →
          mapLookup (firstOutputs filter txid index outputs sts amounts).2
              (ShortOutPoint.new (index + k) txid)
            = some ((outputs.getD k { value := 0 }).value)) ∧
        (UtxoPipeline.status filter (ShortOutPoint.new (index + k) txid)
            = OutputStatus.Unspent →
          mapLookup (firstOutputs filter txid index outputs sts amounts).2
              (ShortOutPoint.new (index + k) txid)
            = mapLookup amounts (ShortOutPoint.new (index + k) txid)) := by
  intro outputs
  induction outputs with
  | nil => intro index sts amounts _ k hk; exact absurd hk (by simp)
  | cons o rest ih =>
    intro index sts amounts hnd k hk
    rw [List.length_cons, List.range_succ_eq_map, List.map_cons, List.map_map,
      outPoint_shift_map, List.nodup_cons] at hnd
    obtain ⟨hnotin, hnd'⟩ := hnd
    have hout : ∀ k', k' < rest.length →
        ShortOutPoint.new (index + 0) txid ≠ ShortOutPoint.new (index + 1 + k') txid := by
      intro k' hk' hcontra
      apply hnotin
      rw [hcontra]
      exact List.mem_map_of_mem _ (List.mem_range.2 hk')
    cases k with
    | zero =>
      constructor
      · intro hst
        simp only [firstOutputs]
        rw [firstOutputs_lookup_outside filter txid rest (index + 1) _ _ _
          (fun k' hk' => hout k' hk')]
        simp only [Nat.add_zero] at hst ⊢
        rw [if_pos hst, mapInsert_lookup]
        simp
      · intro hst
        simp only [firstOutputs]
        rw [firstOutputs_lookup_outside filter txid rest (index + 1) _ _ _
          (fun k' hk' => hout k' hk')]
        simp only [Nat.add_zero] at hst ⊢
        rw [if_neg (by simp [hst])]
    | succ j =>
      have hj : j < rest.length := Nat.lt_of_succ_lt_succ hk
      have harith : index + (j + 1) = index + 1 + j := by omega
      have hne : ¬(ShortOutPoint.new (index + 1 + j) txid
          = ShortOutPoint.new index txid) := by
        intro hcontra
        apply hnotin
        have hz : ShortOutPoint.new (index + 0) txid
            = ShortOutPoint.new index txid := by rw [Nat.add_zero]
        rw [hz, ← hcontra]
        exact List.mem_map_of_mem _ (List.mem_range.2 hj)
      have ihj := ih (index + 1) (sts ++ [UtxoPipeline.status filter
          (ShortOutPoint.new index txid)])
        (if UtxoPipeline.status filter (ShortOutPoint.new index txid)
            ≠ OutputStatus.Unspent
          then mapInsert amounts (ShortOutPoint.new index txid) o.value
          else amounts) hnd' j hj
      rw [harith]
      simp only [firstOutputs]
      constructor
      · intro hst
        rw [ihj.1 hst]
        simp
      · intro hst
        rw [ihj.2 hst]
        split
        · rw [mapInsert_lookup, if_neg hne]
        · rfl

theorem txOutPoints_mem (tx : UtxoTransaction) (q : ShortOutPoint) :
    q ∈ txOutPoints tx
      ↔ ∃ k, k < tx.transaction.output.length ∧ ShortOutPoint.new k tx.txid = q := by
  simp [txOutPoints, List.mem_map, List.mem_range]

theorem zeroAdd_outPoint_map (txid : List Nat) (n : Nat) :
    (List.range n).map (fun k => ShortOutPoint.new (0 + k) txid)
      = (List.range n).map (fun k => ShortOutPoint.new k txid) := by
  apply List.map_congr_left
  intro a _
  rw [Nat.zero_add]

theorem firstTxs_fst (filter : Option (ShortOutPoint → Bool)) :
    ∀ (txs : List UtxoTransaction) (amounts : AmountMap),
      (firstTxs filter txs amounts).1
        = txs.map (fun tx => { tx with outputs := (tx.outputs
            ++ (List.range tx.transaction.output.length).map
                (fun i => UtxoPipeline.status filter (ShortOutPoint.new i tx.txid))) }) := by
  intro txs
  induction txs with
  | nil => intro amounts; rfl
  | cons tx rest ih =>
    intro amounts
    simp only [firstTxs, ih, List.map_cons, firstOutputs_fst]
    have hz : (List.range tx.transaction.output.length).map
        (fun k => UtxoPipeline.status filter (ShortOutPoint.new (0 + k) tx.txid))
        = (List.range tx.transaction.output.length).map
          (fun k => UtxoPipeline.status filter (ShortOutPoint.new k tx.txid)) := by
      apply List.map_congr_left
      intro a _
      rw [Nat.zero_add]
    rw [hz]

theorem firstTxs_lookup_outside (filter : Option (ShortOutPoint → Bool)) :
    ∀ (txs : List UtxoTransaction) (amounts : AmountMap) (q : ShortOutPoint),
      q ∉ txs.flatMap txOutPoints →
      mapLookup (firstTxs filter txs amounts).2 q = mapLookup amounts q := by
  intro txs
  induction txs with
  | nil => intro amounts q _; rfl
  | cons tx rest ih =>
    intro amounts q hq
    rw [List.flatMap_cons, List.mem_append] at hq
    push_neg at hq
    simp only [firstTxs]
    rw [ih _ q hq.2]
    apply firstOutputs_lookup_outside
    intro k hk hcontra
    apply hq.1
    rw [txOutPoints_mem]
    exact ⟨k, hk, by rw [hcontra, Nat.zero_add]⟩

theorem firstTxs_lookup_at (filter : Option (ShortOutPoint → Bool)) :
    ∀ (txs : List UtxoTransaction) (amounts : AmountMap),
      (txs.flatMap txOutPoints).Nodup →
      (∀ p ∈ txs.flatMap txOutPoints, mapLookup amounts p = none) →
      ∀ tx ∈ txs, ∀ k, k < tx.transaction.output.length →
        (UtxoPipeline.status filter (ShortOutPoint.new k tx.txid)
            ≠ OutputStatus.Unspent →
          mapLookup (firstTxs filter txs amounts).2 (ShortOutPoint.new k tx.txid)
            = some ((tx.transaction.output.getD k { value := 0 }).value)) ∧
        (UtxoPipeline.status filter (ShortOutPoint.new k tx.txid)
            = OutputStatus.Unspent →
          mapLookup (firstTxs filter txs amounts).2 (ShortOutPoint.new k tx.txid)
            = none) := by
  intro txs
  induction txs with
  | nil => intro amounts _ _ tx htx; exact absurd htx (by simp)
  | cons tx rest ih =>
    intro amounts hnd hfresh tx' htx' k hk
    rw [List.flatMap_cons] at hnd hfresh
    rw [List.nodup_append] at hnd
    obtain ⟨hnd1, hnd2, hdisj⟩ := hnd
    rcases List.mem_cons.1 htx' with rfl | hmem
    · -- the transaction at the head of the list
      have hp : ShortOutPoint.new k tx'.txid ∈ txOutPoints tx' :=
        (txOutPoints_mem tx' _).2 ⟨k, hk, rfl⟩
      have hrest : ShortOutPoint.new k tx'.txid ∉ rest.flatMap txOutPoints :=
        fun hmem => hdisj hp hmem
      simp only [firstTxs]
      rw [firstTxs_lookup_outside filter rest _ _ hrest]
      have hnd0 : ((List.range tx'.transaction.output.length).map
          (fun j => ShortOutPoint.new (0 + j) tx'.txid)).Nodup := by
        rw [zeroAdd_outPoint_map]
        exact hnd1
      have hat := firstOutputs_lookup_at filter tx'.txid
        tx'.transaction.output 0 tx'.outputs amounts hnd0 k hk
      rw [Nat.zero_add] at hat
      refine ⟨hat.1, fun hst => ?_⟩
      rw [hat.2 hst]
      exact hfresh _ (List.mem_append.2 (Or.inl hp))
    · -- a transaction further down the list
      simp only [firstTxs]
      apply ih _ hnd2 ?_ tx' hmem k hk
      intro p hp
      have hleft : p ∉ txOutPoints tx := fun hl => hdisj hl hp
      rw [firstOutputs_lookup_outside filter tx.txid tx.transaction.output 0
        tx.outputs amounts p ?_]
      · exact hfresh p (List.mem_append.2 (Or.inr hp))
      · intro j hj hcontra
        apply hleft
        rw [txOutPoints_mem]
        exact ⟨j, hj, by rw [hcontra, Nat.zero_add]⟩

theorem utxoPipeline_status_char (filter : Option (ShortOutPoint → Bool))
    (p : ShortOutPoint) :
    (UtxoPipeline.status filter p = OutputStatus.Unknown ↔ filter = none) ∧
    (UtxoPipeline.status filter p = OutputStatus.Unspent
      ↔ ∃ f, filter = some f ∧ f p = true) ∧
    (UtxoPipeline.status filter p = OutputStatus.Spent
      ↔ ∃ f, filter = some f ∧ f p = false) := by
  cases filter with
  | none => simp [UtxoPipeline.status]
  | some f =>
    by_cases hf : f p
    · simp [UtxoPipeline.status, hf]
    · simp only [Bool.not_eq_true] at hf
      simp [UtxoPipeline.status, hf]

/-- Claim C6: in stage one, for every output of every transaction the appended
status is `Unknown` exactly when no filter is attached, `Unspent` exactly when a
filter is attached and contains the outpoint, and `Spent` otherwise; and the pair
(outpoint, value) is in the shared map afterwards if and only if the status is not
`Unspent` (outputs marked `Unspent` leave the map untouched). -/
theorem utxoPipeline_first_spec {H : Type} (filter : Option (ShortOutPoint → Bool))
    (b : UtxoBlock H) (am0 : AmountMap)
    (hnodup : (blockOutPoints b).Nodup)
    (hfresh : ∀ p ∈ blockOutPoints b, mapLookup am0 p = none) :
    ((UtxoPipeline.first filter b am0).1.header = b.header) ∧
    ((UtxoPipeline.first filter b am0).1.txdata
        = b.txdata.map (fun tx => { tx with outputs := (tx.outputs
            ++ (List.range tx.transaction.output.length).map
                (fun i => UtxoPipeline.status filter (ShortOutPoint.new i tx.txid))) })) ∧
    (∀ p : ShortOutPoint,
        (UtxoPipeline.status filter p = OutputStatus.Unknown ↔ filter = none) ∧
        (UtxoPipeline.status filter p = OutputStatus.Unspent
          ↔ ∃ f, filter = some f ∧ f p = true) ∧
        (UtxoPipeline.status filter p = OutputStatus.Spent
          ↔ ∃ f, filter = some f ∧ f p = false)) ∧
    (∀ tx ∈ b.txdata, ∀ k, k < tx.transaction.output.length →
        (UtxoPipeline.status filter (ShortOutPoint.new k tx.txid)
            ≠ OutputStatus.Unspent →
          mapLookup (UtxoPipeline.first filter b am0).2 (ShortOutPoint.new k tx.txid)
            = some ((tx.transaction.output.getD k { value := 0 }).value)) ∧
        (UtxoPipeline.status filter (ShortOutPoint.new k tx.txid)
            = OutputStatus.Unspent →
          mapLookup (UtxoPipeline.first filter b am0).2 (ShortOutPoint.new k tx.txid)
            = none)) ∧
    (∀ q : ShortOutPoint, q ∉ blockOutPoints b →
        mapLookup (UtxoPipeline.first filter b am0).2 q = mapLookup am0 q) := by
  refine ⟨rfl, ?_, fun p => utxoPipeline_status_char filter p, ?_, ?_⟩
  · exact firstTxs_fst filter b.txdata am0
  · exact firstTxs_lookup_at filter b.txdata am0 hnodup hfresh
  · exact fun q hq => firstTxs_lookup_outside filter b.txdata am0 q hq

/-! ### The UTXO pipeline, stage two (`UtxoPipeline::second`, `src/utxos.rs`) -/

/-- Default `TxIn` used only as the `getD` fallback in theorem statements. -/
def dummyTxIn : TxIn := { previous_output := { txid := [], vout := 0 } }

/-- Inner loop of `UtxoPipeline::second` over the inputs of one transaction: a
coinbase transaction gets the zero amount for every input; otherwise the amount
is removed from the shared map, and a missing outpoint
(`.expect("Missing outpoint")` in the source) is fatal, modelled by `none`. -/
def secondInputs (coinbase : Bool) :
    List TxIn → List Nat → AmountMap → Option (List Nat × AmountMap)
  | [], acc, amounts => some (acc, amounts)
  | input :: rest, acc, amounts =>
    if coinbase then secondInputs coinbase rest (acc ++ [0]) amounts
    else
      let r := mapRemove amounts (ShortOutPoint.from_outpoint input.previous_output)
      match r.1 with
      | none => none
      | some value => secondInputs coinbase rest (acc ++ [value]) r.2

/-- `UtxoPipeline::second` restricted to one transaction of the block. -/
def secondTx (tx : UtxoTransaction) (amounts : AmountMap) :
    Option (UtxoTransaction × AmountMap) :=
  match secondInputs tx.transaction.is_coinbase tx.transaction.input tx.inputs amounts with
  | none => none
  | some (inputs, amounts') => some ({ tx with inputs := inputs }, amounts')

/-- Outer loop of `UtxoPipeline::second` over the transactions of a block. -/
def secondTxs :
    List UtxoTransaction → AmountMap → Option (List UtxoTransaction × AmountMap)
  | [], amounts => some ([], amounts)
  | tx :: rest, amounts =>
    match secondTx tx amounts with
    | none => none
    | some (tx', amounts') =>
      match secondTxs rest amounts' with
      | none => none
      | some (rest', amounts'') => some (tx' :: rest', amounts'')

/-- `UtxoPipeline::second` (stage two) on a block. -/
def UtxoPipeline.second {H : Type} (block : UtxoBlock H) (amounts : AmountMap) :
    Option (UtxoBlock H × AmountMap) :=
  match secondTxs block.txdata amounts with
  | none => none
  | some (txs, amounts') => some ({ header := block.header, txdata := txs }, amounts')

theorem secondInputs_true_cons (input : TxIn) (rest : List TxIn) (acc : List Nat)
    (amounts : AmountMap) :
    secondInputs true (input :: rest) acc amounts
      = secondInputs true rest (acc ++ [0]) amounts := rfl

theorem secondInputs_false_cons (input : TxIn) (rest : List TxIn) (acc : List Nat)
    (amounts : AmountMap) :
    secondInputs false (input :: rest) acc amounts
      = match (mapRemove amounts (ShortOutPoint.from_outpoint input.previous_output)).1 with
        | none => none
        | some value => secondInputs false rest (acc ++ [value])
            (mapRemove amounts (ShortOutPoint.from_outpoint input.previous_output)).2 := rfl

theorem secondInputs_coinbase : ∀ (inputs : List TxIn) (acc : List Nat)
    (amounts : AmountMap),
    secondInputs true inputs acc amounts
      = some (acc ++ List.replicate inputs.length 0, amounts) := by
  intro inputs
  induction inputs with
  | nil => intro acc amounts; simp [secondInputs]
  | cons i rest ih =>
    intro acc amounts
    rw [secondInputs_true_cons, ih]
    simp [List.replicate_succ]

theorem mapRemove_preserves_none {K V : Type} [DecidableEq K] (m : List (K × V))
    (k q : K) (h : mapLookup m q = none) : mapLookup (mapRemove m k).2 q = none := by
  rw [mapLookup_eq_none] at h ⊢
  exact fun hmem => h ((mapRemove_keys_sublist m k).subset hmem)

theorem secondInputs_fatal : ∀ (inputs : List TxIn) (acc : List Nat)
    (amounts : AmountMap),
    (∃ input ∈ inputs,
      mapLookup amounts (ShortOutPoint.from_outpoint input.previous_output) = none) →
    secondInputs false inputs acc amounts = none := by
  intro inputs
  induction inputs with
  | nil => intro acc amounts h; exact absurd h (by simp)
  | cons i rest ih =>
    intro acc amounts h
    rw [secondInputs_false_cons]
    rcases h with ⟨input, hmem, hnone⟩
    rcases List.mem_cons.1 hmem with rfl | hmem'
    · rw [mapRemove_fst, hnone]
    · cases hl : (mapRemove amounts
          (ShortOutPoint.from_outpoint i.previous_output)).1 with
      | none => rfl
      | some v =>
        simp only []
        apply ih
        exact ⟨input, hmem', mapRemove_preserves_none amounts _ _ hnone⟩

theorem getD_append_length (l : List Nat) (v : Nat) :
    (l ++ [v]).getD l.length 0 = v := by
  induction l with
  | nil => rfl
  | cons a t ih =>
    simp only [List.cons_append, List.length_cons, List.getD_cons_succ]
    exact ih

theorem getD_append_lt (l l' : List Nat) (j : Nat) (h : j < l.length) :
    (l ++ l').getD j 0 = l.getD j 0 := by
  induction l generalizing j with
  | nil => exact absurd h (by simp)
  | cons a t ih =>
    cases j with
    | zero => rfl
    | succ j' => simpa using ih j' (Nat.lt_of_succ_lt_succ h)

theorem secondInputs_spec : ∀ (inputs : List TxIn) (acc : List Nat)
    (amounts : AmountMap),
    (mapKeys amounts).Nodup →
    ∀ acc' amounts', secondInputs false inputs acc amounts = some (acc', amounts') →
      acc'.length = acc.length + inputs.length ∧
      (∀ j, j < acc.length → acc'.getD j 0 = acc.getD j 0) ∧
      (∀ k, k < inputs.length →
        mapLookup amounts
            (ShortOutPoint.from_outpoint ((inputs.getD k dummyTxIn).previous_output))
          = some (acc'.getD (acc.length + k) 0) ∧
        mapLookup amounts'
            (ShortOutPoint.from_outpoint ((inputs.getD k dummyTxIn).previous_output))
          = none) ∧
      (mapKeys amounts').Nodup ∧
      (∀ q, mapLookup amounts q = none → mapLookup amounts' q = none) ∧
      (∀ q v, mapLookup amounts' q = some v → mapLookup amounts q = some v) := by
  intro inputs
  induction inputs with
  | nil =>
    intro acc amounts hnd acc' amounts' hsome
    simp only [secondInputs, Option.some.injEq, Prod.mk.injEq] at hsome
    obtain ⟨h1, h2⟩ := hsome
    subst h1; subst h2
    refine ⟨by simp, fun j _ => rfl, fun k hk => absurd hk (by simp), hnd,
      fun q h => h, fun q v h => h⟩
  | cons i rest ih =>
    intro acc amounts hnd acc' amounts' hsome
    rw [secondInputs_false_cons] at hsome
    cases hl : (mapRemove amounts (ShortOutPoint.from_outpoint i.previous_output)).1 with
    | none => rw [hl] at hsome; exact absurd hsome (by simp)
    | some v =>
      rw [hl] at hsome
      simp only [] at hsome
      have hlook : mapLookup amounts (ShortOutPoint.from_outpoint i.previous_output)
          = some v := by rw [← mapRemove_fst, hl]
      set am1 := (mapRemove amounts (ShortOutPoint.from_outpoint i.previous_output)).2
        with ham1
      have hnd1 : (mapKeys am1).Nodup := mapRemove_keys_nodup amounts _ hnd
      have ihs := ih (acc ++ [v]) am1 hnd1 acc' amounts' hsome
      obtain ⟨ihlen, ihpre, ihat, ihnd, ihnone, ihback⟩ := ihs
      have ham1look : ∀ q, mapLookup am1 q
          = if q = ShortOutPoint.from_outpoint i.previous_output then none
            else mapLookup amounts q :=
        fun q => mapRemove_lookup amounts _ q hnd
      refine ⟨?_, ?_, ?_, ihnd, ?_, ?_⟩
      · simp only [List.length_append, List.length_singleton] at ihlen
        simp only [List.length_cons]
        omega
      · intro j hj
        rw [ihpre j (by simp only [List.length_append, List.length_singleton]; omega)]
        exact getD_append_lt acc [v] j hj
      · intro k hk
        cases k with
        | zero =>
          constructor
          · simp only [List.getD_cons_zero, Nat.add_zero]
            rw [hlook, ihpre acc.length (by simp), getD_append_length acc v]
          · simp only [List.getD_cons_zero, Nat.add_zero]
            apply ihnone
            rw [ham1look]
            simp
        | succ k' =>
          have hk' : k' < rest.length := Nat.lt_of_succ_lt_succ hk
          have ihk := ihat k' hk'
          simp only [List.getD_cons_succ]
          have hidx : (acc ++ [v]).length + k' = acc.length + (k' + 1) := by
            simp only [List.length_append, List.length_singleton]
            omega
          constructor
          · have h1 := ihk.1
            rw [hidx, ham1look] at h1
            split at h1
            · exact absurd h1 (by simp)
            · exact h1
          · exact ihk.2
      · intro q hq
        exact ihnone q (by rw [ham1look]; split <;> simp [hq])
      · intro q w hq
        have := ihback q w hq
        rw [ham1look] at this
        split at this
        · exact absurd this (by simp)
        · exact this

/-- What stage two guarantees for one transaction: the underlying transaction is
untouched, and the `inputs` vector gains one amount per `TxIn` in input order —
the zero amount for a coinbase, and otherwise the amount stored in the entry map
under the input's shortened previous outpoint, that entry being gone from the
final map. -/
def secondResult (amEntry amFinal : AmountMap) (tx tx' : UtxoTransaction) : Prop :=
  tx'.transaction = tx.transaction ∧
  tx'.txid = tx.txid ∧
  tx'.outputs = tx.outputs ∧
  tx'.inputs.length = tx.transaction.input.length ∧
  (tx.transaction.is_coinbase = true →
    tx'.inputs = List.replicate tx.transaction.input.length 0) ∧
  (tx.transaction.is_coinbase = false →
    ∀ k, k < tx.transaction.input.length →
      mapLookup amEntry (ShortOutPoint.from_outpoint
          ((tx.transaction.input.getD k dummyTxIn).previous_output))
        = some (tx'.inputs.getD k 0) ∧
      mapLookup amFinal (ShortOutPoint.from_outpoint
          ((tx.transaction.input.getD k dummyTxIn).previous_output))
        = none)

theorem secondResult_mono_entry {amE₁ amE₂ amF : AmountMap}
    {tx tx' : UtxoTransaction}
    (h : ∀ q v, mapLookup amE₂ q = some v → mapLookup amE₁ q = some v)
    (hr : secondResult amE₂ amF tx tx') : secondResult amE₁ amF tx tx' := by
  obtain ⟨h1, h2, h3, h4, h5, h6⟩ := hr
  exact ⟨h1, h2, h3, h4, h5, fun hcb k hk =>
    ⟨h _ _ (h6 hcb k hk).1, (h6 hcb k hk).2⟩⟩

theorem secondResult_mono_final {amE amF₁ amF₂ : AmountMap}
    {tx tx' : UtxoTransaction}
    (h : ∀ q, mapLookup amF₁ q = none → mapLookup amF₂ q = none)
    (hr : secondResult amE amF₁ tx tx') : secondResult amE amF₂ tx tx' := by
  obtain ⟨h1, h2, h3, h4, h5, h6⟩ := hr
  exact ⟨h1, h2, h3, h4, h5, fun hcb k hk =>
    ⟨(h6 hcb k hk).1, h _ (h6 hcb k hk).2⟩⟩

theorem secondTx_spec (tx : UtxoTransaction) (amounts : AmountMap)
    (hnd : (mapKeys amounts).Nodup) (hinit : tx.inputs = []) :
    (∀ tx' amounts', secondTx tx amounts = some (tx', amounts') →
      secondResult amounts amounts' tx tx' ∧
      (mapKeys amounts').Nodup ∧
      (∀ q, mapLookup amounts q = none → mapLookup amounts' q = none) ∧
      (∀ q v, mapLookup amounts' q = some v → mapLookup amounts q = some v)) ∧
    (tx.transaction.is_coinbase = false →
      (∃ input ∈ tx.transaction.input,
        mapLookup amounts (ShortOutPoint.from_outpoint input.previous_output) = none) →
      secondTx tx amounts = none) := by
  cases hcb : tx.transaction.is_coinbase with
  | true =>
    constructor
    · intro tx' amounts' hsome
      rw [secondTx, hcb, hinit, secondInputs_coinbase] at hsome
      simp only [List.nil_append, Option.some.injEq, Prod.mk.injEq] at hsome
      obtain ⟨h1, h2⟩ := hsome
      subst h2
      refine ⟨?_, hnd, fun q h => h, fun q v h => h⟩
      rw [← h1]
      exact ⟨rfl, rfl, rfl, by simp, fun _ => rfl,
        fun hfalse => by simp [hcb] at hfalse⟩
    · intro hfalse
      simp at hfalse
  | false =>
    constructor
    · intro tx' amounts' hsome
      rw [secondTx, hcb, hinit] at hsome
      cases hsi : secondInputs false tx.transaction.input [] amounts with
      | none => rw [hsi] at hsome; exact absurd hsome (by simp)
      | some pair =>
        obtain ⟨inputs', am'⟩ := pair
        rw [hsi] at hsome
        simp only [Option.some.injEq, Prod.mk.injEq] at hsome
        obtain ⟨h1, h2⟩ := hsome
        subst h2
        have hspec := secondInputs_spec tx.transaction.input [] amounts hnd
          inputs' am' hsi
        obtain ⟨hlen, _, hat, hnd', hfwd, hback⟩ := hspec
        refine ⟨?_, hnd', hfwd, hback⟩
        rw [← h1]
        refine ⟨rfl, rfl, rfl, by simpa using hlen,
          fun htrue => by simp [hcb] at htrue, ?_⟩
        intro _ k hk
        have := hat k hk
        simpa using this
    · intro _ hex
      rw [secondTx, hcb, hinit, secondInputs_fatal tx.transaction.input [] amounts hex]

theorem secondTxs_cons (tx : UtxoTransaction) (rest : List UtxoTransaction)
    (amounts : AmountMap) :
    secondTxs (tx :: rest) amounts
      = match secondTx tx amounts with
        | none => none
        | some (tx', amounts') =>
          match secondTxs rest amounts' with
          | none => none
          | some (rest', amounts'') => some (tx' :: rest', amounts'') := rfl

theorem secondTxs_spec : ∀ (txs : List UtxoTransaction) (amounts : AmountMap),
    (mapKeys amounts).Nodup →
    (∀ tx ∈ txs, tx.inputs = []) →
    (∀ txs' amounts', secondTxs txs amounts = some (txs', amounts') →
      List.Forall₂ (secondResult amounts amounts') txs txs' ∧
      (mapKeys amounts').Nodup ∧
      (∀ q, mapLookup amounts q = none → mapLookup amounts' q = none) ∧
      (∀ q v, mapLookup amounts' q = some v → mapLookup amounts q = some v)) ∧
    (∀ tx ∈ txs, tx.transaction.is_coinbase = false →
      (∃ input ∈ tx.transaction.input,
        mapLookup amounts (ShortOutPoint.from_outpoint input.previous_output) = none) →
      secondTxs txs amounts = none) := by
  intro txs
  induction txs with
  | nil =>
    intro amounts hnd _
    constructor
    · intro txs' amounts' hsome
      simp only [secondTxs, Option.some.injEq, Prod.mk.injEq] at hsome
      obtain ⟨h1, h2⟩ := hsome
      subst h1; subst h2
      exact ⟨List.Forall₂.nil, hnd, fun q h => h, fun q v h => h⟩
    · intro tx hmem
      exact absurd hmem (by simp)
  | cons tx rest ih =>
    intro amounts hnd hinit
    have htx := secondTx_spec tx amounts hnd (hinit tx (by simp))
    have hinit_rest : ∀ t ∈ rest, t.inputs = [] :=
      fun t ht => hinit t (List.mem_cons.2 (Or.inr ht))
    constructor
    · intro txs' amounts' hsome
      rw [secondTxs_cons] at hsome
      cases hst : secondTx tx amounts with
      | none => rw [hst] at hsome; exact absurd hsome (by simp)
      | some pair =>
        obtain ⟨tx', am1⟩ := pair
        rw [hst] at hsome
        simp only [] at hsome
        cases hrest : secondTxs rest am1 with
        | none => rw [hrest] at hsome; exact absurd hsome (by simp)
        | some pair2 =>
          obtain ⟨rest', am2⟩ := pair2
          rw [hrest] at hsome
          simp only [Option.some.injEq, Prod.mk.injEq] at hsome
          obtain ⟨h1, h2⟩ := hsome
          subst h1; subst h2
          obtain ⟨hres, hnd1, hfwd1, hback1⟩ := htx.1 tx' am1 hst
          obtain ⟨ihf, ihnd, ihfwd, ihback⟩ :=
            (ih am1 hnd1 hinit_rest).1 rest' am2 hrest
          refine ⟨List.Forall₂.cons ?_ ?_, ihnd,
            fun q h => ihfwd q (hfwd1 q h),
            fun q v h => hback1 q v (ihback q v h)⟩
          · exact secondResult_mono_final ihfwd hres
          · exact ihf.imp (fun a b hab => secondResult_mono_entry hback1 hab)
    · intro tx₀ hmem hcb hex
      rcases List.mem_cons.1 hmem with rfl | hmem'
      · have hnone := htx.2 hcb hex
        rw [secondTxs_cons, hnone]
      · cases hst : secondTx tx amounts with
        | none => rw [secondTxs_cons, hst]
        | some pair =>
          obtain ⟨tx', am1⟩ := pair
          obtain ⟨_, hnd1, hfwd1, _⟩ := htx.1 tx' am1 hst
          have hex1 : ∃ input ∈ tx₀.transaction.input,
              mapLookup am1 (ShortOutPoint.from_outpoint input.previous_output)
                = none := by
            rcases hex with ⟨input, hin, hlook⟩
            exact ⟨input, hin, hfwd1 _ hlook⟩
          have hrest := (ih am1 hnd1 hinit_rest).2 tx₀ hmem' hcb hex1
          rw [secondTxs_cons, hst]
          simp only []
          rw [hrest]

/-- Claim C7: in stage two, every transaction's `inputs` vector gains exactly one
amount per `TxIn` in input order — the zero amount for every input of a coinbase
transaction, and otherwise the amount removed from the shared amount map under
the `ShortOutPoint` of the input's `previous_output`; the removed entry is gone
from the map afterwards, and a missing entry makes the operation fail to return
normally (the source panics via `.expect`). -/
theorem utxoPipeline_second_spec {H : Type} (b : UtxoBlock H) (am0 : AmountMap)
    (hkeys : (mapKeys am0).Nodup)
    (hinit : ∀ tx ∈ b.txdata, tx.inputs = []) :
    (∀ b' am', UtxoPipeline.second b am0 = some (b', am') →
      b'.header = b.header ∧
      List.Forall₂ (secondResult am0 am') b.txdata b'.txdata) ∧
    (∀ tx ∈ b.txdata, tx.transaction.is_coinbase = false →
      (∃ input ∈ tx.transaction.input,
        mapLookup am0 (ShortOutPoint.from_outpoint input.previous_output) = none) →
      UtxoPipeline.second b am0 = none) := by
  have hmain := secondTxs_spec b.txdata am0 hkeys hinit
  constructor
  · intro b' am' hsome
    rw [UtxoPipeline.second] at hsome
    cases hs : secondTxs b.txdata am0 with
    | none => rw [hs] at hsome; exact absurd hsome (by simp)
    | some pair =>
      obtain ⟨txs', am''⟩ := pair
      rw [hs] at hsome
      simp only [Option.some.injEq, Prod.mk.injEq] at hsome
      obtain ⟨h1, h2⟩ := hsome
      subst h2
      obtain ⟨hf, _, _, _⟩ := hmain.1 txs' am'' hs
      rw [← h1]
      exact ⟨rfl, hf⟩
  · intro tx hmem hcb hex
    rw [UtxoPipeline.second, hmain.2 tx hmem hcb hex]

/-- Concrete annotated block used by the stage-one and stage-two witnesses. -/
def sampleUtxoBlock : UtxoBlock Nat :=
  { header := 0, txdata := [UtxoTransaction.new sampleTxidFn sampleTx] }

theorem utxoPipeline_first_spec_witness :
    (UtxoPipeline.first (some (fun _ => false)) sampleUtxoBlock ([] : AmountMap)).1.header
      = sampleUtxoBlock.header :=
  (utxoPipeline_first_spec (some (fun _ => false)) sampleUtxoBlock []
    (by decide) (by decide)).1

theorem utxoPipeline_second_spec_witness :
    UtxoPipeline.second sampleUtxoBlock ([] : AmountMap) = none :=
  (utxoPipeline_second_spec sampleUtxoBlock [] (by decide) (by decide)).2
    (UtxoTransaction.new sampleTxidFn sampleTx) (by decide) (by decide)
    ⟨{ previous_output := { txid := List.replicate 32 3, vout := 0 } },
      by decide, by decide⟩

theorem utxoFilter_update_order_witness :
    ShortOutPoint.new 0 (List.replicate 32 3)
      ∈ UtxoFilter.removeAll
          (UtxoFilter.insertAll []
            (UtxoFilter.outpoints sampleTxidFn sampleBlock).2) [] :=
  (utxoFilter_update_order sampleTxidFn sampleBlock []
    (ShortOutPoint.new 0 (List.replicate 32 3)) [] []
    (by decide) (by decide) (by decide)).1

/-! ### The decode/extract worker and progress logging (`src/blocks.rs`)

The body of a decode worker in `parse_with_opts` is, per header of its batch:

  match parse_block(header) with Err(e) => send (index, Err(e)) | Ok(block) =>
  batch_b.extend(extract(block)); followed unconditionally by increment_log(...).

Two projections of that loop are embedded: `runWorker` (the messages sent on the
intermediate channel and the accumulated batch) and `runWorkerCounter` (the shared
progress counter and the emitted log lines). -/

/-- `increment_log`: bump the shared counter; when the new count is a multiple of
`log_at`, report (count / 1000, elapsed / 60, elapsed % 60).  Wall-clock time is
external, so the elapsed seconds are a parameter. -/
def increment_log (num_parsed : Nat) (log_at : Nat) (elapsed : Nat) :
    Nat × Option (Nat × Nat × Nat) :=
  let num := num_parsed + 1
  (num,
    if num % log_at = 0 then some (num / 1000, elapsed / 60, elapsed % 60) else none)

/-- Message/batch projection of one decode worker of `parse_with_opts`:
each decode failure is sent immediately, tagged with the worker's batch `index`;
decoded blocks go through `extract` and accumulate into the batch. -/
def runWorker {Hd Blk B E : Type} (decode : Hd → Except E Blk)
    (extract : Blk → List B) (index : Nat) (headers : List Hd) :
    List (Nat × Except E (List B)) × List B :=
  headers.foldl (fun st header =>
    match decode header with
    | Except.error e => (st.1 ++ [(index, Except.error e)], st.2)
    | Except.ok block => (st.1, st.2 ++ extract block)) ([], [])

/-- The full send sequence of one decode worker: the error messages in order,
then the final `(index, Ok(batch_b))` message. -/
def workerSends {Hd Blk B E : Type} (decode : Hd → Except E Blk)
    (extract : Blk → List B) (index : Nat) (headers : List Hd) :
    List (Nat × Except E (List B)) :=
  (runWorker decode extract index headers).1
    ++ [(index, Except.ok (runWorker decode extract index headers).2)]

/-- Counter/log projection of the decode worker loop: `increment_log` runs once
per header, after the decode `match`, whatever the decode outcome was
(`elapsedAt i` is the wall-clock reading at the i-th header of this worker). -/
def runWorkerCounter {Hd Blk E : Type} (decode : Hd → Except E Blk)
    (log_at : Nat) (elapsedAt : Nat → Nat) (headers : List Hd) (counter0 : Nat) :
    Nat × List (Nat × Nat × Nat) :=
  let st := headers.foldl (fun st header =>
    let _ := decode header
    let r := increment_log st.1 log_at (elapsedAt st.2.1)
    (r.1, st.2.1 + 1, st.2.2 ++ r.2.toList)) (counter0, 0, [])
  (st.1, st.2.2)

/-- Number of headers of a slice whose decode succeeds. -/
def successCount {Hd Blk E : Type} (decode : Hd → Except E Blk)
    (headers : List Hd) : Nat :=
  (headers.filter (fun h =>
    match decode h with
    | Except.ok _ => true
    | Except.error _ => false)).length

theorem filterMap_cons_toList {A B : Type} (f : A → Option B) (a : A) (l : List A) :
    List.filterMap f (a :: l) = (f a).toList ++ List.filterMap f l := by
  cases h : f a <;> simp [List.filterMap_cons, h]

theorem runWorkerCounter_foldl {Hd Blk E : Type} (decode : Hd → Except E Blk)
    (log_at : Nat) (elapsedAt : Nat → Nat) :
    ∀ (headers : List Hd) (c0 i0 : Nat) (logs0 : List (Nat × Nat × Nat)),
      headers.foldl (fun st header =>
        let _ := decode header
        let r := increment_log st.1 log_at (elapsedAt st.2.1)
        (r.1, st.2.1 + 1, st.2.2 ++ r.2.toList)) (c0, i0, logs0)
      = (c0 + headers.length, i0 + headers.length,
          logs0 ++ (List.range headers.length).filterMap (fun i =>
            if (c0 + i + 1) % log_at = 0
            then some ((c0 + i + 1) / 1000,
                elapsedAt (i0 + i) / 60, elapsedAt (i0 + i) % 60)
            else none)) := by
  intro headers
  induction headers with
  | nil => intro c0 i0 logs0; simp
  | cons h t ih =>
    intro c0 i0 logs0
    rw [List.foldl_cons, ih]
    simp only [increment_log, List.length_cons, List.range_succ_eq_map,
      filterMap_cons_toList, List.filterMap_map]
    refine congrArg₂ _ (by omega) (congrArg₂ _ (by omega) ?_)
    have hcongr : ∀ i ∈ List.range t.length,
        ((fun i => if (c0 + i + 1) % log_at = 0
            then some ((c0 + i + 1) / 1000,
                elapsedAt (i0 + i) / 60, elapsedAt (i0 + i) % 60)
            else none) ∘ Nat.succ) i
        = (fun i => if (c0 + 1 + i + 1) % log_at = 0
            then some ((c0 + 1 + i + 1) / 1000,
                elapsedAt (i0 + 1 + i) / 60, elapsedAt (i0 + 1 + i) % 60)
            else none) i := by
      intro i _
      simp only [Function.comp]
      have h1 : c0 + (i + 1) + 1 = c0 + 1 + i + 1 := by omega
      have h2 : i0 + (i + 1) = i0 + 1 + i := by omega
      rw [Nat.succ_eq_add_one, h1, h2]
    rw [List.filterMap_congr hcongr]
    simp only [Nat.add_zero, List.append_assoc]

/-- Counterexample to claim C9 as stated: a single header whose decode fails still
increments the counter once, so the counter counts processed blocks, not
successfully decoded ones. -/
theorem increment_log_counts_failures :
    (runWorkerCounter (fun _ => (Except.error () : Except Unit Nat)) 1000
        (fun _ => 0) [(0 : Nat)] 0).1 = 1
    ∧ successCount (fun _ => (Except.error () : Except Unit Nat)) [(0 : Nat)] = 0
    ∧ (1 : Nat) ≠ 0 := by
  refine ⟨rfl, rfl, by decide⟩

/-- Claim C9 (amended): the shared counter is incremented exactly once per block
processed — whether or not its decode succeeds, and never per extracted item —
and a progress line is emitted exactly when the counter reaches a multiple of
`log_at`, reporting the count divided by 1000 and the elapsed minutes and
seconds. -/
theorem increment_log_spec {Hd Blk E : Type} (decode : Hd → Except E Blk)
    (log_at : Nat) (elapsedAt : Nat → Nat) (headers : List Hd) (counter0 : Nat) :
    (runWorkerCounter decode log_at elapsedAt headers counter0).1
        = counter0 + headers.length ∧
    (runWorkerCounter decode log_at elapsedAt headers counter0).2
        = (List.range headers.length).filterMap (fun i =>
            if (counter0 + i + 1) % log_at = 0
            then some ((counter0 + i + 1) / 1000,
                elapsedAt i / 60, elapsedAt i % 60)
            else none) := by
  have h := runWorkerCounter_foldl decode log_at elapsedAt headers counter0 0 []
  constructor
  · rw [runWorkerCounter, h]
  · rw [runWorkerCounter, h]
    simp only [List.nil_append]
    apply List.filterMap_congr
    intro i _
    rw [Nat.zero_add]

/-! ### Channels and scheduling (`parse_with_opts`, `src/blocks.rs`)

Cross-thread nondeterminism is embedded by quantifying over interleavings:
`MergeAll ws out` holds when `out` interleaves the lists of `ws` preserving the
order inside each list.  The contents of the intermediate channel are an
interleaving of the per-worker send sequences; conversely a channel's items are
distributed to its consumers as subsequences. -/

/-- `out` is an interleaving of the lists in `ws` (order within each preserved). -/
inductive MergeAll {M : Type} : List (List M) → List M → Prop where
  | nil (ws : List (List M)) (h : ∀ w ∈ ws, w = []) : MergeAll ws []
  | cons (pre post : List (List M)) (x : M) (w : List M) (out : List M) :
      MergeAll (pre ++ w :: post) out → MergeAll (pre ++ (x :: w) :: post) (x :: out)

theorem flatten_of_all_nil {M : Type} :
    ∀ (ws : List (List M)), (∀ w ∈ ws, w = []) → ws.flatten = [] := by
  intro ws
  induction ws with
  | nil => intro _; rfl
  | cons w rest ih =>
    intro h
    rw [List.flatten_cons, h w (by simp), ih (fun w' hw' => h w' (by simp [hw']))]
    rfl

/-- Any interleaving is a permutation of the concatenation. -/
theorem MergeAll.perm_flatten {M : Type} {ws : List (List M)} {out : List M}
    (h : MergeAll ws out) : out.Perm ws.flatten := by
  induction h with
  | nil ws h => rw [flatten_of_all_nil ws h]
  | cons pre post x w out _ ih =>
    rw [List.flatten_append, List.flatten_cons]
    have h2 : pre.flatten ++ ((x :: w) ++ post.flatten)
        = pre.flatten ++ x :: (w ++ post.flatten) := by simp
    rw [h2]
    refine (ih.cons x).trans ?_
    have h3 : x :: (pre ++ w :: post).flatten
        = x :: (pre.flatten ++ (w ++ post.flatten)) := by
      rw [List.flatten_append, List.flatten_cons]
    rw [h3]
    exact List.perm_middle.symm

theorem mergeAll_cons_nil {M : Type} {ws : List (List M)} {out : List M}
    (h : MergeAll ws out) : MergeAll ([] :: ws) out := by
  induction h with
  | nil ws h =>
    refine MergeAll.nil ([] :: ws) ?_
    intro w hw
    rcases List.mem_cons.1 hw with rfl | hw'
    · rfl
    · exact h w hw'
  | cons pre post x w out _ ih =>
    exact MergeAll.cons ([] :: pre) post x w out ih

/-- The sequential schedule: running the workers one after the other is a valid
interleaving (this is exactly the `num_threads = 1` execution). -/
theorem mergeAll_seq {M : Type} : ∀ ws : List (List M), MergeAll ws ws.flatten := by
  intro ws
  induction ws with
  | nil => exact MergeAll.nil [] (by simp)
  | cons w rest ih =>
    induction w with
    | nil =>
      rw [List.flatten_cons, List.nil_append]
      exact mergeAll_cons_nil ih
    | cons x w' ihw =>
      rw [List.flatten_cons, List.cons_append]
      exact MergeAll.cons [] rest x w' (w' :: rest).flatten
        (by rw [List.nil_append]; simpa [List.flatten_cons] using ihw)

/-! ### The output side of `parse_with_opts`: `send_batch`, the reorder thread,
and the unordered worker pool -/

/-- `BlockParser::send_batch`: a failed batch is forwarded as a single error item;
an `Ok` batch goes through `batch` and each item through `map`. -/
def send_batch {B C E : Type} (batchF : List B → List B) (mapF : B → C)
    (batch : Except E (List B)) : List (Except E C) :=
  match batch.map batchF with
  | Except.ok b => b.map (fun x => Except.ok (mapF x))
  | Except.error e => [Except.error e]

/-- The drain loop of the reorder thread
(`while let Some(ordered) = unordered.remove(&current_index)`), with explicit
fuel; each successful removal shrinks the map, so `m.length + 1` fuel always
suffices (`drain_eq` below shows the fuelled loop satisfies the loop equation). -/
def drainFuel {B C E : Type} (batchF : List B → List B) (mapF : B → C) :
    Nat → Nat → List (Nat × Except E (List B)) →
      Nat × List (Nat × Except E (List B)) × List (Except E C)
  | 0, cur, m => (cur, m, [])
  | fuel + 1, cur, m =>
    let r := mapRemove m cur
    match r.1 with
    | none => (cur, m, [])
    | some b =>
      let d := drainFuel batchF mapF fuel (cur + 1) r.2
      (d.1, d.2.1, send_batch batchF mapF b ++ d.2.2)

/-- The drain loop with enough fuel to run to completion. -/
def drain {B C E : Type} (batchF : List B → List B) (mapF : B → C) (cur : Nat)
    (m : List (Nat × Except E (List B))) :
    Nat × List (Nat × Except E (List B)) × List (Except E C) :=
  drainFuel batchF mapF (m.length + 1) cur m

theorem drainFuel_fuel {B C E : Type} (batchF : List B → List B) (mapF : B → C) :
    ∀ (f1 : Nat) (f2 cur : Nat) (m : List (Nat × Except E (List B))),
      m.length < f1 → m.length < f2 →
      drainFuel batchF mapF f1 cur m = drainFuel batchF mapF f2 cur m := by
  intro f1
  induction f1 with
  | zero => intro f2 cur m h1 _; exact absurd h1 (by omega)
  | succ f1 ih =>
    intro f2 cur m h1 h2
    cases f2 with
    | zero => exact absurd h2 (by omega)
    | succ f2 =>
      simp only [drainFuel]
      cases hl : (mapRemove m cur).1 with
      | none => rfl
      | some b =>
        have hlen : (mapRemove m cur).2.length + 1 = m.length := by
          apply mapRemove_some_length m cur b
          rw [← mapRemove_fst, hl]
        rw [ih f2 (cur + 1) (mapRemove m cur).2 (by omega) (by omega)]

theorem drain_eq {B C E : Type} (batchF : List B → List B) (mapF : B → C)
    (cur : Nat) (m : List (Nat × Except E (List B))) :
    drain batchF mapF cur m
      = match (mapRemove m cur).1 with
        | none => (cur, m, [])
        | some b =>
          let d := drain batchF mapF (cur + 1) (mapRemove m cur).2
          (d.1, d.2.1, send_batch batchF mapF b ++ d.2.2) := by
  rw [drain]
  simp only [drainFuel]
  cases hl : (mapRemove m cur).1 with
  | none => rfl
  | some b =>
    have hlen : (mapRemove m cur).2.length + 1 = m.length := by
      apply mapRemove_some_length m cur b
      rw [← mapRemove_fst, hl]
    rw [drainFuel_fuel batchF mapF m.length ((mapRemove m cur).2.length + 1)
      (cur + 1) (mapRemove m cur).2 (by omega) (by omega)]
    rfl

/-- One iteration of the reorder thread of `parse_with_opts`: insert the received
message into the `unordered` buffer, then drain consecutive indices starting at
`current_index`, sending each drained batch via `send_batch`. -/
def reorderStep {B C E : Type} (batchF : List B → List B) (mapF : B → C)
    (st : (Nat × List (Nat × Except E (List B))) × List (Except E C))
    (msg : Nat × Except E (List B)) :
    (Nat × List (Nat × Except E (List B))) × List (Except E C) :=
  let m1 := mapInsert st.1.2 msg.1 msg.2
  let d := drain batchF mapF st.1.1 m1
  ((d.1, d.2.1), st.2 ++ d.2.2)

/-- The reorder thread of `parse_with_opts` (`order_output = true`): fold over
the messages received on the intermediate channel, starting from
`current_index = 0` and an empty buffer; returns the emitted output sequence. -/
def reorderRun {B C E : Type} (batchF : List B → List B) (mapF : B → C)
    (msgs : List (Nat × Except E (List B))) : List (Except E C) :=
  (msgs.foldl (reorderStep batchF mapF) ((0, []), [])).2

/-- Possible ordered-mode outputs for a given channel content. -/
def OrderedOutput {B C E : Type} (batchF : List B → List B) (mapF : B → C)
    (msgs : List (Nat × Except E (List B))) (out : List (Except E C)) : Prop :=
  out = reorderRun batchF mapF msgs

/-- Possible unordered-mode outputs for a given channel content: the messages are
distributed among the pool workers as subsequences (`MergeAll assigned msgs`);
each worker emits `send_batch` of its messages in order (ignoring the index:
`for (_, batch) in rx_b`), and the output channel interleaves the workers. -/
def UnorderedOutput {B C E : Type} (batchF : List B → List B) (mapF : B → C)
    (msgs : List (Nat × Except E (List B))) (out : List (Except E C)) : Prop :=
  ∃ assigned : List (List (Nat × Except E (List B))),
    MergeAll assigned msgs ∧
    MergeAll (assigned.map
      (fun ms => (ms.map (fun msg => send_batch batchF mapF msg.2)).flatten)) out

/-- The per-worker send sequences of `parse_with_opts`: one decode/extract worker
per batch, batches numbered by `enumerate`. -/
def channelMsgLists {Hd Blk B E : Type} (decode : Hd → Except E Blk)
    (extract : Blk → List B) (batch_size : Nat) (headers : List Hd) :
    List (List (Nat × Except E (List B))) :=
  (createBatches batch_size headers).enum.map
    (fun p => workerSends decode extract p.1 p.2)

/-- Decode function of the C1 scenario: block 4 of 10 is corrupted. -/
def c1decode : Nat → Except Unit Nat :=
  fun h => if h = 4 then Except.error () else Except.ok h

/-- Claim C1 (code bug): ten headers, batch_size 10, ordered mode, one corrupted
block.  The corrupted batch sends two messages with the same batch index — the
error, then `Ok` of the nine surviving blocks.  The reorder thread drains the
error message and advances `current_index` past the index, so the second message
is never drained: under the sequential schedule (a valid interleaving, e.g.
`num_threads = 1`) the output is exactly `[Err]` — the nine decoded blocks are
lost, instead of the claimed one error item plus nine `Ok` items. -/
theorem ordered_mode_drops_blocks :
    MergeAll (channelMsgLists c1decode (fun b => [b]) 10 [0, 1, 2, 3, 4, 5, 6, 7, 8, 9])
        ((channelMsgLists c1decode (fun b => [b]) 10 [0, 1, 2, 3, 4, 5, 6, 7, 8, 9]).flatten) ∧
    OrderedOutput (fun items => items) (fun b => b)
        ((channelMsgLists c1decode (fun b => [b]) 10 [0, 1, 2, 3, 4, 5, 6, 7, 8, 9]).flatten)
        [Except.error ()] ∧
    (List.length [(Except.error () : Except Unit Nat)] = 1 ∧
      [(Except.error () : Except Unit Nat)].count (Except.error ()) = 1) := by
  refine ⟨mergeAll_seq _, ?_, by decide⟩
  unfold OrderedOutput
  decide

/-! ### Correctness of the reorder thread when every batch sends one message

When every block of the slice decodes, each worker sends exactly one message,
`(i, Ok batch_i)`.  The invariant below tracks the reorder thread's state over
the set `S` of batch indices received so far: `current_index` is the first gap
of `S`, the buffer holds exactly the received messages at indices
`≥ current_index`, and everything below `current_index` has been emitted in
index order. -/

/-- Invariant of the reorder thread's fold state, for payloads `v` and received
index set `S`. -/
def ReorderInv {B C E : Type} (batchF : List B → List B) (mapF : B → C)
    (v : Nat → Except E (List B)) (S : Finset Nat)
    (st : (Nat × List (Nat × Except E (List B))) × List (Except E C)) : Prop :=
  (∀ k, k < st.1.1 → k ∈ S) ∧
  st.1.1 ∉ S ∧
  (mapKeys st.1.2).Nodup ∧
  (∀ k, mapLookup st.1.2 k = if k ∈ S ∧ st.1.1 ≤ k then some (v k) else none) ∧
  st.2 = ((List.range st.1.1).map (fun i => send_batch batchF mapF (v i))).flatten

theorem drain_inv {B C E : Type} (batchF : List B → List B) (mapF : B → C)
    (v : Nat → Except E (List B)) :
    ∀ (fuel : Nat) (m : List (Nat × Except E (List B))), m.length ≤ fuel →
    ∀ (cur : Nat) (S : Finset Nat),
      (mapKeys m).Nodup →
      (∀ k, mapLookup m k = if k ∈ S ∧ cur ≤ k then some (v k) else none) →
      cur ≤ (drain batchF mapF cur m).1 ∧
      (∀ k, cur ≤ k → k < (drain batchF mapF cur m).1 → k ∈ S) ∧
      (drain batchF mapF cur m).1 ∉ S ∧
      (mapKeys (drain batchF mapF cur m).2.1).Nodup ∧
      (∀ k, mapLookup (drain batchF mapF cur m).2.1 k
          = if k ∈ S ∧ (drain batchF mapF cur m).1 ≤ k then some (v k) else none) ∧
      (drain batchF mapF cur m).2.2
        = ((List.range' cur ((drain batchF mapF cur m).1 - cur)).map
            (fun i => send_batch batchF mapF (v i))).flatten := by
  intro fuel
  induction fuel with
  | zero =>
    intro m hm cur S hnd hlook
    have hm0 : m = [] := List.length_eq_zero.1 (Nat.le_zero.1 hm)
    subst hm0
    have hdrain : drain batchF mapF cur ([] : List (Nat × Except E (List B)))
        = (cur, [], []) := rfl
    rw [hdrain]
    have hcur : cur ∉ S := by
      intro hc
      have := hlook cur
      simp [mapLookup, hc] at this
    refine ⟨Nat.le_refl cur, fun k h1 h2 => absurd (Nat.lt_of_le_of_lt h1 h2)
      (by omega), hcur, by simp [mapKeys], hlook, by simp⟩
  | succ fuel ih =>
    intro m hm cur S hnd hlook
    by_cases hcur : cur ∈ S
    · have hsome : mapLookup m cur = some (v cur) := by
        rw [hlook cur, if_pos ⟨hcur, Nat.le_refl cur⟩]
      have hfst : (mapRemove m cur).1 = some (v cur) := by
        rw [mapRemove_fst]; exact hsome
      have hlen : (mapRemove m cur).2.length + 1 = m.length :=
        mapRemove_some_length m cur _ hsome
      have hnd' : (mapKeys (mapRemove m cur).2).Nodup := mapRemove_keys_nodup m cur hnd
      have hlook' : ∀ k, mapLookup (mapRemove m cur).2 k
          = if k ∈ S ∧ cur + 1 ≤ k then some (v k) else none := by
        intro k
        rw [mapRemove_lookup m cur k hnd]
        by_cases hk : k = cur
        · subst hk
          rw [if_pos rfl, if_neg]
          rintro ⟨_, hc⟩
          omega
        · rw [if_neg hk, hlook k]
          have hiff : (k ∈ S ∧ cur ≤ k) ↔ (k ∈ S ∧ cur + 1 ≤ k) := by
            constructor
            · rintro ⟨ha, hb⟩
              refine ⟨ha, ?_⟩
              rcases Nat.lt_or_ge cur k with h | h
              · omega
              · exact absurd (Nat.le_antisymm hb h).symm hk
            · rintro ⟨ha, hb⟩
              exact ⟨ha, by omega⟩
          simp only [hiff]
      have ihd := ih (mapRemove m cur).2 (by omega) (cur + 1) S hnd' hlook'
      obtain ⟨ih1, ih2, ih3, ih4, ih5, ih6⟩ := ihd
      rw [drain_eq batchF mapF cur m]
      simp only [hfst]
      refine ⟨by omega, ?_, ih3, ih4, ih5, ?_⟩
      · intro k hk1 hk2
        by_cases hk : k = cur
        · subst hk; exact hcur
        · exact ih2 k (by omega) hk2
      · rw [ih6]
        have hsub : (drain batchF mapF (cur + 1) (mapRemove m cur).2).1 - cur
            = ((drain batchF mapF (cur + 1) (mapRemove m cur).2).1 - (cur + 1)) + 1 := by
          omega
        rw [hsub, List.range'_succ, List.map_cons, List.flatten_cons]
    · have hnone : mapLookup m cur = none := by
        rw [hlook cur, if_neg]
        rintro ⟨hc, _⟩
        exact hcur hc
      have hfst : (mapRemove m cur).1 = none := by
        rw [mapRemove_fst]; exact hnone
      rw [drain_eq batchF mapF cur m]
      simp only [hfst]
      refine ⟨Nat.le_refl cur, fun k h1 h2 => absurd (Nat.lt_of_le_of_lt h1 h2)
        (by omega), hcur, hnd, hlook, by simp⟩

theorem reorderStep_inv {B C E : Type} (batchF : List B → List B) (mapF : B → C)
    (v : Nat → Except E (List B)) (S : Finset Nat) (j : Nat)
    (st : (Nat × List (Nat × Except E (List B))) × List (Except E C))
    (hInv : ReorderInv batchF mapF v S st) (hj : j ∉ S) :
    ReorderInv batchF mapF v (insert j S) (reorderStep batchF mapF st (j, v j)) := by
  obtain ⟨h1, h2, h3, h4, h5⟩ := hInv
  have hcurj : st.1.1 ≤ j := by
    by_contra hlt
    exact hj (h1 j (by omega))
  have hm1nd : (mapKeys (mapInsert st.1.2 j (v j))).Nodup :=
    mapInsert_keys_nodup _ _ _ h3
  have hm1look : ∀ k, mapLookup (mapInsert st.1.2 j (v j)) k
      = if k ∈ insert j S ∧ st.1.1 ≤ k then some (v k) else none := by
    intro k
    rw [mapInsert_lookup]
    by_cases hk : k = j
    · subst hk
      rw [if_pos rfl, if_pos ⟨Finset.mem_insert_self k S, hcurj⟩]
    · rw [if_neg hk, h4 k]
      have hiff : (k ∈ S ∧ st.1.1 ≤ k) ↔ (k ∈ insert j S ∧ st.1.1 ≤ k) := by
        simp [Finset.mem_insert, hk]
      simp only [hiff]
  obtain ⟨d1, d2, d3, d4, d5, d6⟩ := drain_inv batchF mapF v
    (mapInsert st.1.2 j (v j)).length (mapInsert st.1.2 j (v j))
    (Nat.le_refl _) st.1.1 (insert j S) hm1nd hm1look
  refine ⟨?_, d3, d4, d5, ?_⟩
  · intro k hk
    by_cases hk2 : k < st.1.1
    · exact Finset.mem_insert_of_mem (h1 k hk2)
    · exact d2 k (by omega) hk
  · show st.2 ++ (drain batchF mapF st.1.1 (mapInsert st.1.2 j (v j))).2.2
        = ((List.range (drain batchF mapF st.1.1 (mapInsert st.1.2 j (v j))).1).map
            (fun i => send_batch batchF mapF (v i))).flatten
    rw [h5, d6]
    have hr : List.range (drain batchF mapF st.1.1 (mapInsert st.1.2 j (v j))).1
        = List.range st.1.1 ++ List.range' st.1.1
            ((drain batchF mapF st.1.1 (mapInsert st.1.2 j (v j))).1 - st.1.1) := by
      rw [List.range_eq_range', List.range_eq_range']
      have := List.range'_append 0 st.1.1
        ((drain batchF mapF st.1.1 (mapInsert st.1.2 j (v j))).1 - st.1.1) 1
      simp only [Nat.zero_add, Nat.one_mul] at this
      rw [this]
      congr 1
      omega
    rw [hr, List.map_append, List.flatten_append]

theorem reorderFold_inv {B C E : Type} (batchF : List B → List B) (mapF : B → C)
    (v : Nat → Except E (List B)) :
    ∀ (msgs : List (Nat × Except E (List B))) (S : Finset Nat)
      (st : (Nat × List (Nat × Except E (List B))) × List (Except E C)),
      ReorderInv batchF mapF v S st →
      (∀ msg ∈ msgs, msg.2 = v msg.1) →
      (msgs.map Prod.fst).Nodup →
      (∀ j ∈ msgs.map Prod.fst, j ∉ S) →
      ∃ S' : Finset Nat,
        ReorderInv batchF mapF v S' (msgs.foldl (reorderStep batchF mapF) st) ∧
        ∀ k, k ∈ S' ↔ (k ∈ S ∨ k ∈ msgs.map Prod.fst) := by
  intro msgs
  induction msgs with
  | nil =>
    intro S st hInv _ _ _
    exact ⟨S, hInv, by simp⟩
  | cons msg rest ih =>
    intro S st hInv hv hnd hout
    obtain ⟨j, p⟩ := msg
    have hp : p = v j := hv (j, p) (by simp)
    subst hp
    have hjS : j ∉ S := hout j (by simp)
    have hstep := reorderStep_inv batchF mapF v S j st hInv hjS
    simp only [List.map_cons, List.nodup_cons] at hnd
    obtain ⟨S', hS'inv, hS'char⟩ := ih (insert j S)
      (reorderStep batchF mapF st (j, v j)) hstep
      (fun m hm => hv m (by simp [hm]))
      hnd.2
      (fun i hi => by
        simp only [Finset.mem_insert, not_or]
        exact ⟨fun hij => hnd.1 (hij ▸ hi), hout i (by simp [hi])⟩)
    refine ⟨S', hS'inv, ?_⟩
    intro k
    rw [hS'char k]
    simp only [Finset.mem_insert, List.map_cons, List.mem_cons]
    tauto

theorem reorderRun_of_perm {B C E : Type} (batchF : List B → List B) (mapF : B → C)
    (n : Nat) (v : Nat → Except E (List B))
    (msgs : List (Nat × Except E (List B)))
    (hperm : msgs.Perm ((List.range n).map (fun i => (i, v i)))) :
    reorderRun batchF mapF msgs
      = ((List.range n).map (fun i => send_batch batchF mapF (v i))).flatten := by
  have hInv0 : ReorderInv batchF mapF v ∅ ((0, []), []) := by
    refine ⟨fun k hk => absurd hk (Nat.not_lt_zero k), by simp, by simp [mapKeys],
      ?_, by simp⟩
    intro k
    simp [mapLookup]
  have hv : ∀ msg ∈ msgs, msg.2 = v msg.1 := by
    intro msg hmem
    have hmem2 := hperm.subset hmem
    simp only [List.mem_map, List.mem_range] at hmem2
    obtain ⟨i, _, hi⟩ := hmem2
    rw [← hi]
  have hids : (msgs.map Prod.fst).Perm (List.range n) := by
    have h := hperm.map Prod.fst
    rw [List.map_map] at h
    have hco : (List.range n).map (Prod.fst ∘ fun i => (i, v i)) = List.range n := by
      rw [show (Prod.fst ∘ fun i => (i, v i)) = fun i : Nat => i from rfl, List.map_id']
    rwa [hco] at h
  have hnd : (msgs.map Prod.fst).Nodup := hids.nodup_iff.2 (List.nodup_range n)
  obtain ⟨S', hinv, hchar⟩ := reorderFold_inv batchF mapF v msgs ∅ ((0, []), [])
    hInv0 hv hnd (by simp)
  obtain ⟨h1, h2, h3, h4, h5⟩ := hinv
  have hSn : ∀ k, k ∈ S' ↔ k < n := by
    intro k
    rw [hchar k]
    simp [hids.mem_iff, List.mem_range]
  have hcn : (msgs.foldl (reorderStep batchF mapF) ((0, []), [])).1.1 = n := by
    have hnotin := h2
    rw [hSn] at hnotin
    by_contra hne
    have hlt : n < (msgs.foldl (reorderStep batchF mapF) ((0, []), [])).1.1 := by
      omega
    have := h1 n hlt
    rw [hSn] at this
    omega
  rw [reorderRun, h5, hcn]

/-! ### Assembling the engine correctness claims (C2, C3) -/

theorem runWorker_foldl_all_ok {Hd Blk B E : Type} (decode : Hd → Except E Blk)
    (blk : Hd → Blk) (extract : Blk → List B) (index : Nat) :
    ∀ (hs : List Hd) (msgs0 : List (Nat × Except E (List B))) (acc0 : List B),
      (∀ h ∈ hs, decode h = Except.ok (blk h)) →
      hs.foldl (fun st header =>
        match decode header with
        | Except.error e => (st.1 ++ [(index, Except.error e)], st.2)
        | Except.ok block => (st.1, st.2 ++ extract block)) (msgs0, acc0)
      = (msgs0, acc0 ++ hs.flatMap (fun h => extract (blk h))) := by
  intro hs
  induction hs with
  | nil => intro msgs0 acc0 _; simp
  | cons h t ih =>
    intro msgs0 acc0 hdec
    rw [List.foldl_cons, hdec h (by simp)]
    simp only []
    rw [ih _ _ (fun h' hh => hdec h' (by simp [hh]))]
    simp [List.flatMap_cons, List.append_assoc]

theorem workerSends_all_ok {Hd Blk B E : Type} (decode : Hd → Except E Blk)
    (blk : Hd → Blk) (extract : Blk → List B) (index : Nat) (hs : List Hd)
    (hdec : ∀ h ∈ hs, decode h = Except.ok (blk h)) :
    workerSends decode extract index hs
      = [(index, Except.ok (hs.flatMap (fun h => extract (blk h))))] := by
  rw [workerSends, runWorker, runWorker_foldl_all_ok decode blk extract index hs [] [] hdec]
  simp

theorem chunksFrom_flatten {H : Type} (batch_size : Nat) :
    ∀ (l cur : List H), (chunksFrom batch_size cur l).flatten = cur ++ l := by
  intro l
  induction l with
  | nil => intro cur; simp [chunksFrom]
  | cons h t ih =>
    intro cur
    simp only [chunksFrom]
    split
    · rw [List.flatten_cons, ih []]
      simp
    · rw [ih (cur ++ [h])]
      simp

theorem createBatches_flatten {H : Type} (batch_size : Nat) (headers : List H) :
    (createBatches batch_size headers).flatten = headers := by
  rw [createBatches_eq, chunksFrom_flatten]
  rfl

theorem enumFrom_map_getD {A B2 : Type} (d : A) (g : Nat → A → B2) :
    ∀ (l : List A) (s : Nat),
      (List.enumFrom s l).map (fun p => g p.1 p.2)
        = (List.range l.length).map (fun i => g (s + i) (l.getD i d)) := by
  intro l
  induction l with
  | nil => intro s; rfl
  | cons a t ih =>
    intro s
    have h1 : List.enumFrom s (a :: t) = (s, a) :: List.enumFrom (s + 1) t := rfl
    rw [h1, List.map_cons, ih (s + 1), List.length_cons, List.range_succ_eq_map,
      List.map_cons, List.map_map]
    have h2 : g s a = g (s + 0) ((a :: t).getD 0 d) := by rw [Nat.add_zero]; rfl
    rw [h2]
    congr 1
    apply List.map_congr_left
    intro i _
    simp only [Function.comp]
    have h3 : s + Nat.succ i = s + 1 + i := by omega
    rw [h3]
    rfl

theorem flatten_map_singleton {A B2 : Type} (f : A → B2) :
    ∀ l : List A, (l.map (fun x => [f x])).flatten = l.map f := by
  intro l
  induction l with
  | nil => rfl
  | cons a t ih => simp_all

theorem flatten_map_flatten {A B2 : Type} (g : A → List B2) :
    ∀ ls : List (List A),
      ((ls.map (fun ms => (ms.map g).flatten)).flatten)
        = ((ls.flatten).map g).flatten := by
  intro ls
  induction ls with
  | nil => rfl
  | cons ms rest ih =>
    rw [List.map_cons, List.flatten_cons, List.flatten_cons, List.map_append,
      List.flatten_append, ih]

theorem flatten_map_map {A B2 : Type} (g : A → B2) :
    ∀ ls : List (List A),
      ((ls.map (fun hs => hs.map g)).flatten) = (ls.flatten).map g := by
  intro ls
  induction ls with
  | nil => rfl
  | cons ms rest ih =>
    rw [List.map_cons, List.flatten_cons, List.flatten_cons, List.map_append, ih]

theorem range_map_getD {A B2 : Type} (d : A) (g : A → B2) :
    ∀ l : List A,
      (List.range l.length).map (fun i => g (l.getD i d)) = l.map g := by
  intro l
  induction l with
  | nil => rfl
  | cons a t ih =>
    have h1 : List.map ((fun i => g ((a :: t).getD i d)) ∘ Nat.succ)
        (List.range t.length)
        = List.map (fun i => g (t.getD i d)) (List.range t.length) :=
      List.map_congr_left (fun i _ => rfl)
    rw [List.length_cons, List.range_succ_eq_map, List.map_cons, List.map_map, h1,
      ih, List.map_cons]
    rfl

theorem channelMsgLists_all_ok {Hd Blk B E : Type} (decode : Hd → Except E Blk)
    (blk : Hd → Blk) (extract : Blk → List B) (batch_size : Nat)
    (headers : List Hd)
    (hdec : ∀ h ∈ headers, decode h = Except.ok (blk h)) :
    channelMsgLists decode extract batch_size headers
      = (List.range (createBatches batch_size headers).length).map
          (fun i => [(i, Except.ok (((createBatches batch_size headers).getD i []).flatMap
            (fun h => extract (blk h))))]) := by
  rw [channelMsgLists]
  have henum : (createBatches batch_size headers).enum
      = List.enumFrom 0 (createBatches batch_size headers) := rfl
  rw [henum, enumFrom_map_getD [] (fun i hs => workerSends decode extract i hs)]
  apply List.map_congr_left
  intro i hi
  rw [Nat.zero_add]
  apply workerSends_all_ok decode blk extract
  intro h hh
  apply hdec
  rw [← createBatches_flatten batch_size headers]
  rw [List.mem_flatten]
  refine ⟨(createBatches batch_size headers).getD i [], ?_, hh⟩
  rw [List.getD_eq_getElem _ _ (List.mem_range.1 hi)]
  exact List.getElem_mem _

/-- The reference output of the engine on an all-decoding slice: for each batch
in order, `extract`'s results in header order, then `batch`, then `map`,
each item wrapped in `Ok`. -/
def refOutput {Hd Blk B C E : Type} (blk : Hd → Blk) (extract : Blk → List B)
    (batchF : List B → List B) (mapF : B → C) (batch_size : Nat)
    (headers : List Hd) : List (Except E C) :=
  ((createBatches batch_size headers).map (fun hs =>
    (batchF (hs.flatMap (fun h => extract (blk h)))).map
      (fun b => (Except.ok (mapF b) : Except E C)))).flatten

/-- Claim C3: on a header slice where every block decodes, ordered mode emits
exactly the reference sequence (map after batch after extract, in the order of
the slice), for every schedule; unordered mode emits a permutation of it, for
every schedule and assignment of batches to pool workers. -/
theorem parse_output_spec {Hd Blk B C E : Type} (decode : Hd → Except E Blk)
    (blk : Hd → Blk) (extract : Blk → List B) (batchF : List B → List B)
    (mapF : B → C) (batch_size : Nat) (headers : List Hd)
    (hdec : ∀ h ∈ headers, decode h = Except.ok (blk h))
    (msgs : List (Nat × Except E (List B)))
    (hch : MergeAll (channelMsgLists decode extract batch_size headers) msgs)
    (out : List (Except E C)) :
    (OrderedOutput batchF mapF msgs out →
      out = refOutput blk extract batchF mapF batch_size headers) ∧
    (UnorderedOutput batchF mapF msgs out →
      out.Perm (refOutput blk extract batchF mapF batch_size headers)) := by
  have hch_eq := channelMsgLists_all_ok decode blk extract batch_size headers hdec
  have hmsgs : msgs.Perm ((List.range (createBatches batch_size headers).length).map
      (fun i => (i, Except.ok (((createBatches batch_size headers).getD i []).flatMap
        (fun h => extract (blk h)))))) := by
    have h := hch.perm_flatten
    rw [hch_eq, flatten_map_singleton] at h
    exact h
  have href : ((List.range (createBatches batch_size headers).length).map
      (fun i => send_batch batchF mapF
        ((Except.ok (((createBatches batch_size headers).getD i []).flatMap
          (fun h => extract (blk h)))) : Except E (List B)))).flatten
      = refOutput blk extract batchF mapF batch_size headers := by
    rw [refOutput]
    congr 1
    have hstep : (fun i => send_batch batchF mapF
        ((Except.ok (((createBatches batch_size headers).getD i []).flatMap
          (fun h => extract (blk h)))) : Except E (List B)))
        = fun i => (batchF (((createBatches batch_size headers).getD i []).flatMap
          (fun h => extract (blk h)))).map (fun b => (Except.ok (mapF b) : Except E C)) := rfl
    rw [hstep]
    exact range_map_getD [] (fun hs => (batchF (hs.flatMap (fun h => extract (blk h)))).map
      (fun b => (Except.ok (mapF b) : Except E C))) (createBatches batch_size headers)
  constructor
  · intro hord
    rw [hord, reorderRun_of_perm batchF mapF (createBatches batch_size headers).length
      _ msgs hmsgs, href]
  · rintro ⟨assigned, hassign, hout⟩
    have h1 := hout.perm_flatten
    rw [flatten_map_flatten (fun msg => send_batch batchF mapF msg.2) assigned] at h1
    have h3 : (assigned.flatten).Perm ((List.range (createBatches batch_size headers).length).map
        (fun i => (i, Except.ok (((createBatches batch_size headers).getD i []).flatMap
          (fun h => extract (blk h)))))) :=
      hassign.perm_flatten.symm.trans hmsgs
    have h5 := h3.flatMap_right (fun msg => send_batch batchF mapF msg.2)
    have h6 : ((List.range (createBatches batch_size headers).length).map
        (fun i => (i, (Except.ok (((createBatches batch_size headers).getD i []).flatMap
          (fun h => extract (blk h))) : Except E (List B))))).flatMap
        (fun msg => send_batch batchF mapF msg.2)
        = ((List.range (createBatches batch_size headers).length).map
          (fun i => send_batch batchF mapF
            ((Except.ok (((createBatches batch_size headers).getD i []).flatMap
              (fun h => extract (blk h)))) : Except E (List B)))).flatten := by
      show (List.map _ _).flatten = _
      rw [List.map_map]
      rfl
    refine h1.trans ?_
    have h7 : ((assigned.flatten).map (fun msg => send_batch batchF mapF msg.2)).flatten
        = (assigned.flatten).flatMap (fun msg => send_batch batchF mapF msg.2) := rfl
    rw [h7]
    refine h5.trans ?_
    rw [h6, href]

theorem parse_output_spec_witness :
    reorderRun (fun items : List Nat => items) (fun b : Nat => b)
        ((channelMsgLists (fun h : Nat => (Except.ok h : Except Unit Nat))
          (fun b => [b]) 2 [0, 1, 2]).flatten)
      = refOutput (fun h : Nat => h) (fun b => [b]) (fun items => items)
          (fun b => b) 2 [0, 1, 2] :=
  (parse_output_spec (fun h : Nat => (Except.ok h : Except Unit Nat)) (fun h => h)
    (fun b => [b]) (fun items => items) (fun b => b) 2 [0, 1, 2]
    (fun h _ => rfl) _ (mergeAll_seq _) _).1 rfl

theorem flatMap_singleton_map {Hd Blk : Type} (blk : Hd → Blk) :
    ∀ hs : List Hd, hs.flatMap (fun h => [blk h]) = hs.map blk := by
  intro hs
  induction hs with
  | nil => rfl
  | cons a t ih => simp_all

/-- Claim C2: with identity extract (one item per block, e.g. `ParallelParser`),
default batch and identity map, on a slice where every block decodes, every
possible output stream — in either mode, under every schedule — has exactly
`|H|` items, all of them `Ok`. -/
theorem parse_count_all_ok {Hd Blk E : Type} (decode : Hd → Except E Blk)
    (blk : Hd → Blk) (batch_size : Nat) (headers : List Hd)
    (hdec : ∀ h ∈ headers, decode h = Except.ok (blk h))
    (msgs : List (Nat × Except E (List Blk)))
    (hch : MergeAll (channelMsgLists decode (fun b => [b]) batch_size headers) msgs)
    (out : List (Except E Blk))
    (hout : OrderedOutput (fun items => items) (fun b => b) msgs out
        ∨ UnorderedOutput (fun items => items) (fun b => b) msgs out) :
    out.length = headers.length ∧ ∀ x ∈ out, ∃ b, x = Except.ok b := by
  have hspec := parse_output_spec decode blk (fun b => [b]) (fun items => items)
    (fun b => b) batch_size headers hdec msgs hch out
  have hrefeq : refOutput blk (fun b => [b]) (fun items => items) (fun b => b)
      batch_size headers
      = headers.map (fun h => (Except.ok (blk h) : Except E Blk)) := by
    rw [refOutput]
    have hper : (fun hs : List Hd => ((fun items : List Blk => items)
        (hs.flatMap (fun h => [blk h]))).map
          (fun b => (Except.ok ((fun b : Blk => b) b) : Except E Blk)))
        = fun hs : List Hd => hs.map (fun h => (Except.ok (blk h) : Except E Blk)) := by
      funext hs
      rw [flatMap_singleton_map blk hs]
      simp [List.map_map, Function.comp]
    rw [hper, flatten_map_map, createBatches_flatten]
  rcases hout with hord | hunord
  · rw [hspec.1 hord, hrefeq]
    refine ⟨List.length_map _ _, ?_⟩
    intro x hx
    rw [List.mem_map] at hx
    obtain ⟨h, _, hh⟩ := hx
    exact ⟨blk h, hh.symm⟩
  · have hper := hspec.2 hunord
    rw [hrefeq] at hper
    refine ⟨by rw [hper.length_eq, List.length_map], ?_⟩
    intro x hx
    have hx2 := hper.subset hx
    rw [List.mem_map] at hx2
    obtain ⟨h, _, hh⟩ := hx2
    exact ⟨blk h, hh.symm⟩

theorem parse_count_all_ok_witness :
    (reorderRun (fun items : List Nat => items) (fun b : Nat => b)
        ((channelMsgLists (fun h : Nat => (Except.ok h : Except Unit Nat))
          (fun b => [b]) 2 [0, 1, 2]).flatten)).length = ([0, 1, 2] : List Nat).length ∧
    ∀ x ∈ reorderRun (fun items : List Nat => items) (fun b : Nat => b)
        ((channelMsgLists (fun h : Nat => (Except.ok h : Except Unit Nat))
          (fun b => [b]) 2 [0, 1, 2]).flatten), ∃ b, x = Except.ok b :=
  parse_count_all_ok (fun h : Nat => (Except.ok h : Except Unit Nat)) (fun h => h)
    2 [0, 1, 2] (fun h _ => rfl) _ (mergeAll_seq _) _ (Or.inl rfl)

end BBP
